import Mathlib

/-! # web-performance: dispatch loop and aggregation of `main.go`

A shallow embedding of `main.go`: the `WebResult` matrix, the worker loop of
`main`, and the reductions `barChart` and `durationChart` perform on the
matrix before handing the series to the chart library.

Conventions of the embedding.

* A Go `for i := 0; i < n; i++` loop is `forLoop n body init`; a run-time panic
  (index out of range, slice bounds out of range) is the result `none`.
* `time.Duration` is an `int64` count of nanoseconds and is an `Int` here;
  `Duration.Milliseconds` is division by `10^6` truncated toward zero.
* `int64` additions that can leave the `int64` range are wrapped (`wrap64`),
  and so is the arithmetic of `main` on the Go `int` values `clients` and
  `iterations` (64 bits): the length `clients * iterations` of the matrix at
  line 68 and the index `ii*iterations + j` at line 82. In `barChart` and
  `durationChart` the matrix is given with its length `clients * iterations`,
  the counters `fail`, `err` and `div` are bounded by the number of clients
  and the index `i*iterations + j` by the length of the slice, so these are
  plain naturals.
* A `float64` (`F64`) is a finite dyadic rational `mant * 2^exp`, an infinity
  or NaN; conversion from an integer and division round to nearest, ties to
  even, with a 53 bit significand.
* A Go `string` is the list of its characters.
* The goroutines are interleaved by a schedule, a list of client indices, each
  entry letting that client run one pass of its loop body. The outcome of the
  call of client `ii` at iteration `j` is given by an arbitrary function
  `env ii j`. Whether `http.NewRequest` accepts the method and the URL is the
  field `requestValid` of the configuration; a slice whose length is not
  negative is taken to be allocated.
-/

namespace WebPerformance

/-! ## Data model -/

/-- A Go `string`. -/
abbrev GoString := List Char

/-- One cell of the result matrix (`type WebResult struct`); `err = none` is
the Go `nil` error, `duration` is in nanoseconds. -/
structure WebResult where
  err : Option GoString
  verify : Bool
  duration : Int
  deriving DecidableEq, Repr

/-- The value the initialisation loop of `main` (lines 70-74) stores in every
cell. -/
def WebResult.zero : WebResult := ⟨none, false, 0⟩

/-- Go `time.Duration.Milliseconds`: `int64(d) / 1e6`, truncated toward zero. -/
def milliseconds (d : Int) : Int := Int.tdiv d 1000000

/-- Two's complement wrap-around of an `int64` result. -/
def wrap64 (x : Int) : Int := (x + 2 ^ 63) % 2 ^ 64 - 2 ^ 63

/-- The loop `for i := 0; i < n; i++ { s = body i s }`, where the body may
panic (`none`). -/
def forLoop {σ : Type} (n : Nat) (body : Nat → σ → Option σ) (s : σ) : Option σ :=
  match n with
  | 0 => some s
  | k + 1 => (forLoop k body s).bind (body k)

/-! ## Strings (Go standard library, as used by `main`) -/

/-- Go `unicode.IsSpace`: the Latin-1 spaces `\t \n \v \f \r`, space, U+0085 and
U+00A0, and the other code points with the Unicode White_Space property. -/
def isSpace (c : Char) : Bool :=
  let n := c.toNat
  n = 0x09 || n = 0x0A || n = 0x0B || n = 0x0C || n = 0x0D || n = 0x20 ||
  n = 0x85 || n = 0xA0 || n = 0x1680 || (0x2000 ≤ n && n ≤ 0x200A) ||
  n = 0x2028 || n = 0x2029 || n = 0x202F || n = 0x205F || n = 0x3000

/-- Go `strings.TrimSpace`: the string without its leading and trailing white
space. -/
def trimSpace (s : GoString) : GoString :=
  ((s.dropWhile isSpace).reverse.dropWhile isSpace).reverse

/-- Go `strings.Compare`: -1, 0 or 1 by lexicographic order. -/
def compare : GoString → GoString → Int
  | [], [] => 0
  | [], _ :: _ => -1
  | _ :: _, [] => 1
  | a :: as, b :: bs =>
    if a.toNat < b.toNat then -1 else if b.toNat < a.toNat then 1 else compare as bs

/-- Go `strings.Index(s, ":")`: the index of the first colon of `s`, or -1. -/
def indexColon : GoString → Int
  | [] => -1
  | c :: cs =>
    if c = ':' then 0
    else if indexColon cs < 0 then -1 else indexColon cs + 1

/-- The slice expression `s[:hi]`; out of range bounds panic. -/
def sliceTo (s : GoString) (hi : Int) : Option GoString :=
  if 0 ≤ hi ∧ hi ≤ s.length then some (s.take hi.toNat) else none

/-- The slice expression `s[lo:]`; out of range bounds panic. -/
def sliceFrom (s : GoString) (lo : Int) : Option GoString :=
  if 0 ≤ lo ∧ lo ≤ s.length then some (s.drop lo.toNat) else none

/-! ## Request builder and verification rule of `main` -/

/-- Lines 92-93: the name and value `main` passes to `Header.Set` for one
header string. -/
def parseHeader (header : GoString) : Option (GoString × GoString) :=
  let idx := indexColon header
  (sliceTo header idx).bind fun name =>
  (sliceFrom header (idx + 1)).bind fun value =>
  some (trimSpace name, trimSpace value)

/-- Lines 91-94: the `Header.Set` calls made for the header list, in order. -/
def setHeaders : List GoString → Option (List (GoString × GoString))
  | [] => some []
  | header :: rest =>
    (parseHeader header).bind fun nv => (setHeaders rest).map fun l => nv :: l

/-- Line 113: the `verify` flag of a response whose body was read. -/
def verifyFlag (verifyBody body : GoString) : Bool :=
  verifyBody.length == 0 || compare (trimSpace body) (trimSpace verifyBody) == 0

/-! ## The dispatch loop of `main` -/

/-- The command-line options the dispatch loop reads. `requestValid` says
whether `http.NewRequest` accepts the options `-request` and `-url`; when it
does not, the request is `nil` (the error is dropped at lines 86 and 88). -/
structure Config where
  clients : Nat
  iterations : Nat
  delay : Int
  verifyBody : GoString
  headers : List GoString
  requestValid : Bool

/-- What the network does with one call: `client.Do` fails, `io.ReadAll`
fails, or the body is read and `time.Since(start)` is `elapsed`. -/
inductive Outcome where
  | transportError (e : GoString)
  | readError (e : GoString)
  | success (body : GoString) (elapsed : Int)
  deriving DecidableEq, Repr

/-- Observable steps of a worker: the call of iteration `j`, the recording of
its outcome in cell `idx`, and a `time.Sleep` of `ns` nanoseconds. -/
inductive Event where
  | call (client j : Nat)
  | record (client idx : Nat)
  | sleep (client : Nat) (ns : Int)
  deriving DecidableEq, Repr

/-- Whether the event records an outcome in cell `k`. -/
def Event.writesTo (k : Nat) : Event → Bool
  | .record _ idx => idx == k
  | _ => false

/-- Whether the event is a `time.Sleep`. -/
def Event.isSleep : Event → Bool
  | .sleep _ _ => true
  | _ => false

/-- Whether the body of the response was read. -/
def Outcome.isSuccess : Outcome → Bool
  | .success _ _ => true
  | _ => false

/-- The position of iteration `j` of client `ii` in a row-major matrix with
rows of `iterations` cells: the value of `ii*iterations + j` without
wrap-around. -/
def rowIndex (iterations ii j : Nat) : Nat := ii * iterations + j

/-- The index `idx = ii*(*iterations) + j` of line 82, computed in Go `int`:
the product and the sum wrap around. -/
def cellIndex (iterations ii j : Nat) : Int :=
  wrap64 (wrap64 ((ii : Int) * (iterations : Int)) + (j : Int))

/-- The index expression `arr[idx]`: an index below 0 or not below the length
panics. -/
def cellAt (arr : List WebResult) (idx : Int) : Option WebResult :=
  if 0 ≤ idx then arr[idx.toNat]? else none

/-- Lines 68-74: `make` with the length `(*clients)*(*iterations)`, computed in
Go `int` with wrap-around, panics when the length is negative; every cell of
the fresh slice is then set to `nil`, `false`, `0`. -/
def initMatrix (clients iterations : Nat) : Option (List WebResult) :=
  if 0 ≤ wrap64 ((clients : Int) * (iterations : Int)) then
    some (List.replicate (wrap64 ((clients : Int) * (iterations : Int))).toNat WebResult.zero)
  else none

/-- One pass through the body of the loop at lines 81-123 for client `ii` and
iteration `j`, given the outcome of the call: the new matrix and the events of
the pass. A `nil` request panics at its first use (`Header.Set` at line 93 or
`client.Do` at line 98), a header string without colon panics at line 93, and
an index out of range panics at the first `arr[idx]`. A failed call stores the
error and takes `continue`; a call whose body was read stores `verify` and
`duration` and then sleeps. -/
def iteration (cfg : Config) (ii j : Nat) (o : Outcome) (arr : List WebResult) :
    Option (List WebResult × List Event) :=
  let idx := cellIndex cfg.iterations ii j
  if cfg.requestValid then
    (setHeaders cfg.headers).bind fun _ =>
    (cellAt arr idx).bind fun cell =>
    match o with
    | .transportError e =>
      some (arr.set idx.toNat { cell with err := some e },
        [.call ii j, .record ii idx.toNat])
    | .readError e =>
      some (arr.set idx.toNat { cell with err := some e },
        [.call ii j, .record ii idx.toNat])
    | .success body elapsed =>
      some (arr.set idx.toNat
          { cell with verify := verifyFlag cfg.verifyBody body, duration := elapsed },
        [.call ii j, .record ii idx.toNat, .sleep ii (wrap64 (cfg.delay * 1000000))])
  else none

/-- The goroutine of client `ii` (lines 80-125) run on its own: all its
iterations in order, with the outcomes `env ii j`. -/
def worker (cfg : Config) (env : Nat → Nat → Outcome) (ii : Nat) (arr : List WebResult) :
    Option (List WebResult × List Event) :=
  forLoop cfg.iterations
    (fun j s => (iteration cfg ii j (env ii j) s.1).map fun r => (r.1, s.2 ++ r.2))
    (arr, [])

/-- State of a run: the shared matrix, the loop counter `j` of every worker,
and the events so far. -/
structure RunState where
  arr : List WebResult
  pc : List Nat
  trace : List Event
  deriving DecidableEq, Repr

/-- State when the workers are started (line 79), if the matrix could be
made. -/
def initState (cfg : Config) : Option RunState :=
  (initMatrix cfg.clients cfg.iterations).map fun arr =>
    ⟨arr, List.replicate cfg.clients 0, []⟩

/-- The scheduler lets worker `ii` run its next iteration; a worker that does
not exist or has finished does nothing. -/
def step (cfg : Config) (env : Nat → Nat → Outcome) (st : RunState) (ii : Nat) :
    Option RunState :=
  match st.pc[ii]? with
  | none => some st
  | some j =>
    if j < cfg.iterations then
      (iteration cfg ii j (env ii j) st.arr).map fun r =>
        ⟨r.1, st.pc.set ii (j + 1), st.trace ++ r.2⟩
    else some st

/-- Runs the workers from state `st` in the interleaving `sched`. -/
def runFrom (cfg : Config) (env : Nat → Nat → Outcome) : RunState → List Nat → Option RunState
  | st, [] => some st
  | st, ii :: rest => (step cfg env st ii).bind fun st' => runFrom cfg env st' rest

/-- A run of the dispatch loop under the interleaving `sched` of the workers'
iterations. -/
def run (cfg : Config) (env : Nat → Nat → Outcome) (sched : List Nat) : Option RunState :=
  (initState cfg).bind fun st => runFrom cfg env st sched

/-- Every worker has left its loop (`wg.Wait` returns). -/
def RunState.complete (cfg : Config) (st : RunState) : Prop :=
  ∀ ii, ii < cfg.clients → st.pc[ii]? = some cfg.iterations

instance (cfg : Config) (st : RunState) : Decidable (st.complete cfg) := by
  unfold RunState.complete; infer_instance

/-- The interleaving in which client 0 runs to the end, then client 1, and so
on. -/
def sequentialSchedule (clients iterations : Nat) : List Nat :=
  (List.range clients).flatMap fun ii => List.replicate iterations ii

/-! ## `barChart` -/

/-- What `barChart` computes from the matrix and passes to the chart: the
maximum of the left axis, the x axis, and the two stacked bar series. -/
structure BarChart where
  durationMax : Int
  axis : List Int
  failList : List (Int × Int)
  errList : List (Int × Int)
  deriving DecidableEq, Repr

/-- Body of the loop at lines 152-156. -/
def barChart.maxStep (arr : List WebResult) (i : Nat) (durationMax : Int) : Option Int :=
  (arr[i]?).bind fun c =>
    if c.err = none ∧ durationMax < milliseconds c.duration then
      some (milliseconds c.duration)
    else some durationMax

/-- Body of the inner loop at lines 193-200; the state is `(fail, err)`. -/
def barChart.countStep (iterations : Nat) (arr : List WebResult) (j i : Nat)
    (s : Nat × Nat) : Option (Nat × Nat) :=
  (arr[i * iterations + j]?).bind fun c =>
    let fail := if !c.verify then s.1 + 1 else s.1
    let err := if c.err ≠ none then s.2 + 1 else s.2
    some (fail, err)

/-- Body of the outer loop at lines 190-205; the state is
`(failList, errList)`. -/
def barChart.seriesStep (clients iterations : Nat) (arr : List WebResult) (j : Nat)
    (s : List (Int × Int) × List (Int × Int)) :
    Option (List (Int × Int) × List (Int × Int)) :=
  (forLoop clients (barChart.countStep iterations arr j) (0, 0)).bind fun fe =>
    if j < s.1.length ∧ j < s.2.length then
      some (s.1.set j ((j : Int), (fe.1 : Int)), s.2.set j ((j : Int), (fe.2 : Int)))
    else none

/-- The function `barChart` (lines 149-222), without the calls into the chart
library. -/
def barChart (clients iterations : Nat) (arr : List WebResult) : Option BarChart :=
  (forLoop (clients * iterations) (barChart.maxStep arr) 0).bind fun durationMax =>
  (forLoop iterations (fun j (axis : List Int) =>
      if j < axis.length then some (axis.set j (j : Int)) else none)
    (List.replicate iterations 0)).bind fun axis =>
  (forLoop iterations (barChart.seriesStep clients iterations arr)
    (List.replicate iterations (0, 0), List.replicate iterations (0, 0))).bind fun s =>
  some ⟨durationMax, axis, s.1, s.2⟩

/-! ## `float64` -/

/-- A Go `float64`: a finite value `mant * 2^exp`, an infinity, or NaN. Finite
values are kept with an unbounded exponent; the values that occur here are
conversions of `int64` values and their quotients, whose magnitudes lie between
`2^-63` and `2^63`, far inside the exponent range of the format. -/
inductive F64 where
  | finite (mant exp : Int)
  | inf (negative : Bool)
  | nan
  deriving DecidableEq, Repr

/-- The constant `0` as a `float64`. -/
def F64.zero : F64 := .finite 0 0

/-- The rational number a finite `float64` stands for. -/
def F64.toRat : F64 → Option ℚ
  | .finite mant exp => some ((mant : ℚ) * (2 : ℚ) ^ exp)
  | _ => none

/-- Halving `n` until it is below 2, at most `fuel` times, counting the
halvings. -/
def log2Floor.go : Nat → Nat → Nat
  | 0, _ => 0
  | fuel + 1, n => if 2 ≤ n then log2Floor.go fuel (n / 2) + 1 else 0

/-- The position of the highest set bit of `n`, that is `⌊log₂ n⌋` for
`n > 0`. -/
def log2Floor (n : Nat) : Nat := log2Floor.go n n

/-- The exponent `e` with `2^e ≤ p / q < 2^(e+1)`, for `p, q > 0`. -/
def binaryExponent (p q : Nat) : Int :=
  let e0 : Int := (log2Floor p : Int) - (log2Floor q : Int)
  let atLeast : Bool :=
    if 0 ≤ e0 then q * 2 ^ e0.toNat ≤ p else q ≤ p * 2 ^ (-e0).toNat
  if atLeast then e0 else e0 - 1

/-- The integer nearest to `num / den`, the even one of the two when
`num / den` lies halfway between them. -/
def roundHalfEven (num den : Nat) : Nat :=
  let f := num / den
  let r := num % den
  if 2 * r < den then f else if den < 2 * r then f + 1 else if f % 2 = 0 then f else f + 1

/-- The `float64` nearest to `p / q` for `p, q > 0`, ties to even, as the pair
`(mant, exp)` of the value `mant * 2^exp`: the quotient is scaled by `2^s` into
`[2^52, 2^53)`, rounded to an integer significand, and returned with the
exponent `-s`. -/
def roundRatio (p q : Nat) : Nat × Int :=
  let s : Int := 52 - binaryExponent p q
  if 0 ≤ s then (roundHalfEven (p * 2 ^ s.toNat) q, -s)
  else (roundHalfEven p (q * 2 ^ (-s).toNat), -s)

/-- The conversion `float64(x)` of an integer. -/
def F64.ofInt (x : Int) : F64 :=
  if x = 0 then F64.zero
  else .finite (x.sign * (roundRatio x.natAbs 1).1) (roundRatio x.natAbs 1).2

/-- The quotient `a / b` of two `float64` values. A finite value divided by
zero is an infinity, or NaN when the dividend is zero too. -/
def F64.div : F64 → F64 → F64
  | .finite ma ea, .finite mb eb =>
    if mb = 0 then (if ma = 0 then .nan else .inf (decide (ma < 0)))
    else if ma = 0 then F64.zero
    else
      .finite (ma.sign * mb.sign * (roundRatio ma.natAbs mb.natAbs).1)
        ((roundRatio ma.natAbs mb.natAbs).2 + ea - eb)
  | .nan, _ => .nan
  | _, .nan => .nan
  | .inf _, .inf _ => .nan
  | .inf n, .finite mb _ => .inf (n != decide (mb < 0))
  | .finite _ _, .inf _ => F64.zero

/-! ## `durationChart` -/

/-- What `durationChart` computes from the matrix and passes to the chart: the
x axis, one series of `(j, milliseconds)` per client, and the series of the
averages. -/
structure LineChart where
  axis : List Int
  series : List (List (Int × Int))
  avgList : List (F64 × F64)
  deriving DecidableEq, Repr

/-- Body of the loop at lines 236-238; the state is `dataList`. -/
def durationChart.dataStep (iterations : Nat) (arr : List WebResult) (i j : Nat)
    (dataList : List (Int × Int)) : Option (List (Int × Int)) :=
  (arr[i * iterations + j]?).bind fun c =>
    if j < dataList.length then some (dataList.set j ((j : Int), milliseconds c.duration))
    else none

/-- Body of the loop at lines 234-249; the state is the list of series added
to the chart. -/
def durationChart.clientStep (iterations : Nat) (arr : List WebResult) (i : Nat)
    (series : List (List (Int × Int))) : Option (List (List (Int × Int))) :=
  (forLoop iterations (durationChart.dataStep iterations arr i)
    (List.replicate iterations (0, 0))).map fun dataList => series ++ [dataList]

/-- Body of the inner loop at lines 255-260; the state is `(sum, div)`. -/
def durationChart.sumStep (iterations : Nat) (arr : List WebResult) (j i : Nat)
    (s : Int × Nat) : Option (Int × Nat) :=
  (arr[i * iterations + j]?).bind fun c =>
    if c.verify then some (wrap64 (s.1 + milliseconds c.duration), s.2 + 1) else some s

/-- Lines 261-265: the average stored for one iteration. -/
def durationChart.average (sum : Int) (div : Nat) : F64 :=
  if div = 0 then F64.zero else F64.div (F64.ofInt sum) (F64.ofInt (div : Int))

/-- Body of the outer loop at lines 252-266; the state is `avgList`. -/
def durationChart.avgStep (clients iterations : Nat) (arr : List WebResult) (j : Nat)
    (avgList : List (F64 × F64)) : Option (List (F64 × F64)) :=
  (forLoop clients (durationChart.sumStep iterations arr j) (0, 0)).bind fun s =>
    if j < avgList.length then
      some (avgList.set j (F64.ofInt (j : Int), durationChart.average s.1 s.2))
    else none

/-- The function `durationChart` (lines 224-280), without the calls into the
chart library. -/
def durationChart (clients iterations : Nat) (arr : List WebResult) : Option LineChart :=
  (forLoop iterations (fun j (axis : List Int) =>
      if j < axis.length then some (axis.set j (j : Int)) else none)
    (List.replicate iterations 0)).bind fun axis =>
  (forLoop clients (durationChart.clientStep iterations arr) []).bind fun series =>
  (forLoop iterations (durationChart.avgStep clients iterations arr)
    (List.replicate iterations (F64.zero, F64.zero))).bind fun avgList =>
  some ⟨axis, series, avgList⟩

/-- The millisecond durations of the cells `i*iterations + j`, `i < clients`,
whose `verify` is true. -/
def verifiedMs (clients iterations : Nat) (arr : List WebResult) (j : Nat) : List Int :=
  (List.range clients).filterMap fun i =>
    match arr[i * iterations + j]? with
    | some c => if c.verify then some (milliseconds c.duration) else none
    | none => none

/-- The arithmetic mean of the verified millisecond durations at iteration
`j` as an exact rational, and `0` when no client verified. -/
def meanLatency (clients iterations : Nat) (arr : List WebResult) (j : Nat) : ℚ :=
  if (verifiedMs clients iterations arr j).length = 0 then 0
  else ((verifiedMs clients iterations arr j).sum : ℚ) /
    ((verifiedMs clients iterations arr j).length : ℚ)

/-- Three verified cells at one iteration with the durations 1 ms, 0 and 0. -/
def thirdMatrix : List WebResult :=
  [⟨none, true, 1000000⟩, ⟨none, true, 0⟩, ⟨none, true, 0⟩]

/-- A 1 x 1 matrix whose call succeeded and was verified in half a
millisecond. -/
def fastMatrix : List WebResult := [⟨none, true, 500000⟩]

/-! ## Reference quantities of the aggregation -/

/-- The millisecond durations of the cells without an error. -/
def errorFreeMs (arr : List WebResult) : List Int :=
  (arr.filter fun c => c.err.isNone).map fun c => milliseconds c.duration

/-- The largest duration, in whole milliseconds, among the cells without an
error, and `0` when there is no such cell. -/
def maxLatencySpec (arr : List WebResult) : Int :=
  match errorFreeMs arr with
  | [] => 0
  | x :: xs => xs.foldl max x

/-- Number of clients `i < clients` whose cell `i*iterations + j` has
`verify = false`. -/
def failCount (clients iterations : Nat) (arr : List WebResult) (j : Nat) : Nat :=
  (List.range clients).countP fun i =>
    match arr[i * iterations + j]? with
    | some c => !c.verify
    | none => false

/-- Number of clients `i < clients` whose cell `i*iterations + j` has an
error. -/
def errorCount (clients iterations : Nat) (arr : List WebResult) (j : Nat) : Nat :=
  (List.range clients).countP fun i =>
    match arr[i * iterations + j]? with
    | some c => c.err.isSome
    | none => false



/-! ## Sample matrices -/

/-- A 2 x 2 matrix: client 0 succeeds in 5 ms and then fails with an error
(the cell keeps a stale duration of 9 s to show that it is ignored), client 1
gets an unverified body in 7.5 ms and a verified one in 100 ns. -/
def sampleMatrix : List WebResult :=
  [⟨none, true, 5000000⟩, ⟨some "refused".toList, false, 9000000000⟩,
   ⟨none, false, 7500000⟩, ⟨none, true, 100⟩]

/-- A 1 x 1 matrix whose only cell is free of error and holds a negative
duration of -5 ms. -/
def negativeMatrix : List WebResult := [⟨none, true, -5000000⟩]

/-! ## Invariant of the dispatch loop -/

/-- What holds in every state of a run, whatever the options: the matrix has
the length computed at line 68, there is one counter per client, and the index
of every pass a worker has made was in range. -/
structure RunShape (cfg : Config) (st : RunState) : Prop where
  len_nonneg : 0 ≤ wrap64 ((cfg.clients : Int) * (cfg.iterations : Int))
  arr_len : (st.arr.length : Int) = wrap64 ((cfg.clients : Int) * (cfg.iterations : Int))
  pc_len : st.pc.length = cfg.clients
  pc_le : ∀ (ii p : Nat), st.pc[ii]? = some p → p ≤ cfg.iterations
  visited : ∀ (ii p j : Nat), st.pc[ii]? = some p → j < p →
    0 ≤ cellIndex cfg.iterations ii j ∧
      cellIndex cfg.iterations ii j < (st.arr.length : Int)

/-- What holds in every state of a run when `clients * iterations` fits in a
Go `int`: the shapes of the matrix and of the counters, the cells a worker has
not reached yet still hold the initial value, a cell with an error has
`verify = false` and `duration = 0`, every recording is in the row of its
worker, and cell `k` has been recorded once if the worker of row
`k / iterations` is past iteration `k % iterations` and never otherwise. -/
structure RunInv (cfg : Config) (st : RunState) : Prop where
  bound : cfg.clients * cfg.iterations < 2 ^ 63
  arr_len : st.arr.length = cfg.clients * cfg.iterations
  pc_len : st.pc.length = cfg.clients
  pc_le : ∀ (ii p : Nat), st.pc[ii]? = some p → p ≤ cfg.iterations
  fresh : ∀ (ii p j : Nat), st.pc[ii]? = some p → p ≤ j → j < cfg.iterations →
    st.arr[rowIndex cfg.iterations ii j]? = some WebResult.zero
  err_zero : ∀ c ∈ st.arr, c.err ≠ none → c.verify = false ∧ c.duration = 0
  owner : ∀ ii k, Event.record ii k ∈ st.trace →
    ii < cfg.clients ∧ ii * cfg.iterations ≤ k ∧ k < ii * cfg.iterations + cfg.iterations
  once : ∀ k, st.trace.countP (Event.writesTo k) =
    if k / cfg.iterations < cfg.clients ∧ k % cfg.iterations < st.pc.getD (k / cfg.iterations) 0
    then 1 else 0

/-! ## Sample run -/

/-- Two clients, two iterations, a delay of 100 ms, the expectation "pong",
one header, and a method and URL that `http.NewRequest` accepts. -/
def sampleConfig : Config := ⟨2, 2, 100, "pong".toList, ["Accept: */*".toList], true⟩

/-- The first call of client 0 is refused, the second call of client 1 loses
the connection while the body is read, the other two calls return " pong" in
1.5 ms. -/
def sampleEnv : Nat → Nat → Outcome := fun ii j =>
  if ii = 0 ∧ j = 0 then .transportError "connection refused".toList
  else if ii = 1 ∧ j = 1 then .readError "unexpected EOF".toList
  else .success " pong".toList 1500000

/-- An interleaving of the two sample clients. -/
def sampleSchedule : List Nat := [1, 0, 1, 0]

/-- The matrix of the sample run. -/
def sampleRunMatrix : List WebResult :=
  [⟨some "connection refused".toList, false, 0⟩, ⟨none, true, 1500000⟩,
   ⟨none, true, 1500000⟩, ⟨some "unexpected EOF".toList, false, 0⟩]

/-- The final state of the sample run. -/
def sampleRunState : RunState :=
  ⟨sampleRunMatrix, [2, 2],
   [.call 1 0, .record 1 2, .sleep 1 100000000,
    .call 0 0, .record 0 0,
    .call 1 1, .record 1 3,
    .call 0 1, .record 0 1, .sleep 0 100000000]⟩

/-- The matrix of the scenario with two clients and three iterations in which
every call is verified in 1.5 ms. -/
def pongMatrix : List WebResult := List.replicate 6 ⟨none, true, 1500000⟩

/-- Three clients and 6148914691236517206 iterations: the product is
`2^64 + 2` and wraps to 2. -/
def overflowConfig : Config := ⟨3, 6148914691236517206, 0, [], [], true⟩

/-- With `2^32 + 1` clients and `2^32` iterations the product is `2^64 + 2^32`
and wraps to `2^32`. -/
def aliasConfig : Config := ⟨4294967297, 4294967296, 0, [], [], true⟩

/-! ## Loops -/

theorem forLoop_inv {σ : Type} (P : Nat → σ → Prop) (n : Nat) (body : Nat → σ → Option σ)
    (s : σ) (h0 : P 0 s)
    (hstep : ∀ k t, k < n → P k t → ∃ t', body k t = some t' ∧ P (k + 1) t') :
    ∃ t, forLoop n body s = some t ∧ P n t := by
  induction n with
  | zero => exact ⟨s, rfl, h0⟩
  | succ k ih =>
    obtain ⟨t, ht, hP⟩ := ih fun i u hi hu => hstep i u (Nat.lt_succ_of_lt hi) hu
    obtain ⟨t', ht', hP'⟩ := hstep k t (Nat.lt_succ_self k) hP
    exact ⟨t', by simp [forLoop, ht, ht'], hP'⟩

theorem cell_index_lt {N M i j : Nat} (hi : i < N) (hj : j < M) : i * M + j < N * M := by
  calc i * M + j < i * M + M := by omega
    _ = (i + 1) * M := by ring
    _ ≤ N * M := Nat.mul_le_mul_right M hi

/-! ## Wrap-around -/

theorem wrap64_of_range {x : Int} (h1 : -2 ^ 63 ≤ x) (h2 : x < 2 ^ 63) : wrap64 x = x := by
  unfold wrap64
  rw [Int.emod_eq_of_lt (by omega) (by omega)]
  omega

theorem wrap64_add_left (a b : Int) : wrap64 (wrap64 a + b) = wrap64 (a + b) := by
  unfold wrap64
  have h : ((a + 2 ^ 63) % 2 ^ 64 - 2 ^ 63 + b + 2 ^ 63) % 2 ^ 64 = (a + b + 2 ^ 63) % 2 ^ 64 := by
    have e1 : (a + 2 ^ 63) % 2 ^ 64 - 2 ^ 63 + b + 2 ^ 63 = (a + 2 ^ 63) % 2 ^ 64 + b := by ring
    have e2 : a + b + 2 ^ 63 = (a + 2 ^ 63) + b := by ring
    rw [e1, e2, Int.emod_add_cancel_right, Int.emod_emod_of_dvd _ (dvd_refl _)]
  rw [h]

theorem wrap64_range (x : Int) : -2 ^ 63 ≤ wrap64 x ∧ wrap64 x < 2 ^ 63 := by
  unfold wrap64
  omega

/-! ## Maximum latency -/

theorem max_foldl_max (l : List Int) (a b : Int) :
    max a (l.foldl max b) = l.foldl max (max a b) := by
  induction l generalizing b with
  | nil => rfl
  | cons x xs ih => simp only [List.foldl_cons]; rw [ih, max_assoc]

theorem max_zero_maxLatencySpec (arr : List WebResult) :
    max 0 (maxLatencySpec arr) = (errorFreeMs arr).foldl max 0 := by
  unfold maxLatencySpec
  cases h : errorFreeMs arr with
  | nil => simp
  | cons x xs => simp only [List.foldl_cons]; rw [max_foldl_max]

theorem foldl_max_ge_init (l : List Int) (b : Int) : b ≤ l.foldl max b := by
  induction l generalizing b with
  | nil => exact le_refl _
  | cons x xs ih => exact le_trans (le_max_left b x) (ih _)

theorem foldl_max_ge_mem (l : List Int) (b x : Int) (hx : x ∈ l) : x ≤ l.foldl max b := by
  induction l generalizing b with
  | nil => cases hx
  | cons y ys ih =>
    rcases List.mem_cons.1 hx with rfl | h
    · exact le_trans (le_max_right b x) (foldl_max_ge_init _ _)
    · exact ih _ h

theorem foldl_max_mem (l : List Int) (b : Int) : l.foldl max b = b ∨ l.foldl max b ∈ l := by
  induction l generalizing b with
  | nil => exact Or.inl rfl
  | cons y ys ih =>
    simp only [List.foldl_cons]
    rcases ih (max b y) with h | h
    · rcases max_choice b y with hb | hy
      · left; rw [h, hb]
      · right; rw [h, hy]; exact List.mem_cons_self _ _
    · right; exact List.mem_cons_of_mem _ h

theorem mem_errorFreeMs {arr : List WebResult} {x : Int} :
    x ∈ errorFreeMs arr ↔ ∃ c ∈ arr, c.err = none ∧ milliseconds c.duration = x := by
  simp [errorFreeMs, List.mem_map, List.mem_filter, and_assoc]

theorem errorFreeMs_append (a b : List WebResult) :
    errorFreeMs (a ++ b) = errorFreeMs a ++ errorFreeMs b := by
  simp [errorFreeMs]

theorem maxStep_eq (arr : List WebResult) (k : Nat) (d : Int) (hk : k < arr.length) :
    barChart.maxStep arr k d =
      some (if (arr[k]).err = none ∧ d < milliseconds (arr[k]).duration
        then milliseconds (arr[k]).duration else d) := by
  simp only [barChart.maxStep, List.getElem?_eq_getElem hk, Option.some_bind]
  split <;> rfl

theorem maxLoop_spec (arr : List WebResult) (n : Nat) (hn : n ≤ arr.length) :
    ∃ d, forLoop n (barChart.maxStep arr) 0 = some d ∧
      d = (errorFreeMs (arr.take n)).foldl max 0 := by
  induction n with
  | zero => exact ⟨0, rfl, by simp [errorFreeMs]⟩
  | succ k ih =>
    obtain ⟨d, hd, hspec⟩ := ih (Nat.le_of_succ_le hn)
    have hk : k < arr.length := hn
    have htake : arr.take (k + 1) = arr.take k ++ [arr[k]] := by
      rw [List.take_succ, List.getElem?_eq_getElem hk]; rfl
    refine ⟨_, by simp only [forLoop, hd, Option.some_bind, maxStep_eq arr k d hk]; rfl, ?_⟩
    rw [htake, errorFreeMs_append, List.foldl_append, ← hspec]
    cases herr : (arr[k]).err with
    | some e => simp [errorFreeMs, herr]
    | none =>
      by_cases hlt : d < milliseconds (arr[k]).duration
      · simp [errorFreeMs, herr, hlt, max_eq_right (le_of_lt hlt)]
      · simp [errorFreeMs, herr, hlt, max_eq_left (not_lt.1 hlt)]

theorem milliseconds_nonneg {d : Int} (h : 0 ≤ d) : 0 ≤ milliseconds d :=
  Int.tdiv_nonneg h (by decide)


/-! ## Failure and error counts -/

theorem countLoop_spec (N M : Nat) (arr : List WebResult) (j n : Nat)
    (hlen : arr.length = N * M) (hj : j < M) (hn : n ≤ N) :
    forLoop n (barChart.countStep M arr j) (0, 0) =
      some (failCount n M arr j, errorCount n M arr j) := by
  induction n with
  | zero => rfl
  | succ k ih =>
    have hk : k * M + j < arr.length := hlen ▸ cell_index_lt (Nat.lt_of_succ_le hn) hj
    simp only [forLoop, ih (Nat.le_of_succ_le hn), Option.some_bind, barChart.countStep,
      List.getElem?_eq_getElem hk, failCount, errorCount, List.range_succ,
      List.countP_append, List.countP_cons, List.countP_nil]
    cases hv : (arr[k * M + j]).verify <;> cases he : (arr[k * M + j]).err <;> simp

theorem axisLoop_spec (M n : Nat) (hn : n ≤ M) :
    ∃ axis : List Int,
      forLoop n (fun j (axis : List Int) =>
        if j < axis.length then some (axis.set j (j : Int)) else none)
        (List.replicate M 0) = some axis ∧ axis.length = M := by
  induction n with
  | zero => exact ⟨_, rfl, by simp⟩
  | succ k ih =>
    obtain ⟨a, ha, hl⟩ := ih (Nat.le_of_succ_le hn)
    have hk : k < a.length := by omega
    exact ⟨a.set k (k : Int), by simp [forLoop, ha, hk], by simp [hl]⟩

theorem seriesLoop_spec (N M : Nat) (arr : List WebResult) (hlen : arr.length = N * M)
    (n : Nat) (hn : n ≤ M) :
    ∃ s, forLoop n (barChart.seriesStep N M arr)
        (List.replicate M (0, 0), List.replicate M (0, 0)) = some s ∧
      s.1.length = M ∧ s.2.length = M ∧
      ∀ j : Nat, j < n →
        s.1[j]? = some ((j : Int), (failCount N M arr j : Int)) ∧
        s.2[j]? = some ((j : Int), (errorCount N M arr j : Int)) := by
  induction n with
  | zero => exact ⟨_, rfl, by simp, by simp, fun j hj => absurd hj (Nat.not_lt_zero j)⟩
  | succ k ih =>
    obtain ⟨s, hs, h1, h2, hval⟩ := ih (Nat.le_of_succ_le hn)
    have hk : k < M := hn
    refine ⟨(s.1.set k ((k : Int), (failCount N M arr k : Int)),
      s.2.set k ((k : Int), (errorCount N M arr k : Int))), ?_, by simp [h1], by simp [h2], ?_⟩
    · simp only [forLoop, hs, Option.some_bind, barChart.seriesStep,
        countLoop_spec N M arr k N hlen hk (le_refl N), h1, h2, hk, and_self, if_true]
    · intro j hj
      rcases Nat.lt_succ_iff_lt_or_eq.1 hj with hlt | rfl
      · have hne : k ≠ j := by omega
        simp [List.getElem?_set, hne, hval j hlt]
      · simp [List.getElem?_set, h1, h2, hk]

theorem barChart_spec (N M : Nat) (arr : List WebResult) (hlen : arr.length = N * M) :
    ∃ r, barChart N M arr = some r ∧
      r.durationMax = (errorFreeMs arr).foldl max 0 ∧
      r.failList.length = M ∧ r.errList.length = M ∧
      ∀ j : Nat, j < M →
        r.failList[j]? = some ((j : Int), (failCount N M arr j : Int)) ∧
        r.errList[j]? = some ((j : Int), (errorCount N M arr j : Int)) := by
  obtain ⟨d, hd, hdspec⟩ := maxLoop_spec arr (N * M) (le_of_eq hlen.symm)
  obtain ⟨a, ha, -⟩ := axisLoop_spec M M (le_refl M)
  obtain ⟨s, hs, h1, h2, hval⟩ := seriesLoop_spec N M arr hlen M (le_refl M)
  refine ⟨⟨d, a, s.1, s.2⟩, by simp only [barChart, hd, ha, hs, Option.some_bind], ?_, h1, h2, hval⟩
  rw [hdspec, ← hlen, List.take_length]

/-! ## Claims on `barChart` -/

/-- C1 (as stated, refuted): on the 1 x 1 matrix whose error-free cell holds
-5 ms, `barChart` computes `durationMax = 0`, although the largest duration
among the error-free cells is -5 ms. -/
theorem durationMax_negative_counterexample :
    (barChart 1 1 negativeMatrix).map BarChart.durationMax = some 0 ∧
      maxLatencySpec negativeMatrix = -5 ∧
      (barChart 1 1 negativeMatrix).map BarChart.durationMax
        ≠ some (maxLatencySpec negativeMatrix) := by
  decide

/-- C1 (amended): for every matrix of length `N * M`, `barChart` returns, and
its `durationMax` is the larger of 0 and the largest millisecond duration among
the cells without an error: it bounds every such duration, it is 0 or the
duration of such a cell, it is 0 when every cell has an error, and it is exactly
the largest error-free duration when no error-free cell has a negative
duration. Cells with an error do not occur in the characterisation. -/
theorem barChart_durationMax (N M : Nat) (arr : List WebResult)
    (hlen : arr.length = N * M) :
    ∃ r, barChart N M arr = some r ∧
      r.durationMax = max 0 (maxLatencySpec arr) ∧
      (∀ c ∈ arr, c.err = none → milliseconds c.duration ≤ r.durationMax) ∧
      (r.durationMax = 0 ∨
        ∃ c ∈ arr, c.err = none ∧ milliseconds c.duration = r.durationMax) ∧
      ((∀ c ∈ arr, c.err ≠ none) → r.durationMax = 0) ∧
      ((∀ c ∈ arr, c.err = none → 0 ≤ c.duration) →
        r.durationMax = maxLatencySpec arr) := by
  obtain ⟨r, hr, hmax, -⟩ := barChart_spec N M arr hlen
  have hmem := foldl_max_mem (errorFreeMs arr) 0
  rw [← hmax] at hmem
  have hzero : (∀ c ∈ arr, c.err ≠ none) → r.durationMax = 0 := by
    intro hall
    rcases hmem with h | h
    · exact h
    · obtain ⟨c, hc, he, -⟩ := mem_errorFreeMs.1 h
      exact absurd he (hall c hc)
  refine ⟨r, hr, ?_, ?_, ?_, hzero, ?_⟩
  · rw [hmax, max_zero_maxLatencySpec]
  · intro c hc he
    rw [hmax]
    exact foldl_max_ge_mem _ _ _ (mem_errorFreeMs.2 ⟨c, hc, he, rfl⟩)
  · rcases hmem with h | h
    · exact Or.inl h
    · exact Or.inr (mem_errorFreeMs.1 h)
  · intro hnn
    rw [hmax, ← max_zero_maxLatencySpec]
    apply max_eq_right
    unfold maxLatencySpec
    cases hl : errorFreeMs arr with
    | nil => exact le_refl _
    | cons x xs =>
      have hx : x ∈ errorFreeMs arr := by rw [hl]; exact List.mem_cons_self _ _
      obtain ⟨c, hc, he, hms⟩ := mem_errorFreeMs.1 hx
      exact le_trans (hms ▸ milliseconds_nonneg (hnn c hc he)) (foldl_max_ge_init xs x)

/-- Witness of C1 on the 2 x 2 sample matrix: the maximum is 7 ms, the stale
9 s of the error cell is ignored. -/
theorem barChart_durationMax_witness :
    sampleMatrix.length = 2 * 2 ∧
      (barChart 2 2 sampleMatrix).map BarChart.durationMax = some 7 ∧
      ∃ r, barChart 2 2 sampleMatrix = some r ∧
        r.durationMax = max 0 (maxLatencySpec sampleMatrix) :=
  ⟨by decide, by decide,
    (barChart_durationMax 2 2 sampleMatrix (by decide)).imp fun _ h => ⟨h.1, h.2.1⟩⟩

/-- C2: for every matrix of length `N * M`, `barChart` returns, and for every
iteration `j < M` its `failList[j]` is `(j, number of clients whose cell
i*M+j has verify = false)` and its `errList[j]` is `(j, number of clients
whose cell i*M+j has an error)`; the two counts are taken independently, so a
cell with an error and `verify = false` is counted in both. -/
theorem barChart_fail_err_counts (N M : Nat) (arr : List WebResult)
    (hlen : arr.length = N * M) :
    ∃ r, barChart N M arr = some r ∧
      r.failList.length = M ∧ r.errList.length = M ∧
      ∀ j : Nat, j < M →
        r.failList[j]? = some ((j : Int), (failCount N M arr j : Int)) ∧
        r.errList[j]? = some ((j : Int), (errorCount N M arr j : Int)) := by
  obtain ⟨r, hr, -, h1, h2, hval⟩ := barChart_spec N M arr hlen
  exact ⟨r, hr, h1, h2, hval⟩

/-- Witness of C2 on the 2 x 2 sample matrix: at iteration 1 the error cell of
client 0 is counted as a failure and as an error. -/
theorem barChart_fail_err_counts_witness :
    sampleMatrix.length = 2 * 2 ∧
      failCount 2 2 sampleMatrix 1 = 1 ∧ errorCount 2 2 sampleMatrix 1 = 1 ∧
      failCount 2 2 sampleMatrix 0 = 1 ∧ errorCount 2 2 sampleMatrix 0 = 0 ∧
      ∃ r, barChart 2 2 sampleMatrix = some r ∧
        r.failList.length = 2 ∧ r.errList.length = 2 ∧
        ∀ j : Nat, j < 2 →
          r.failList[j]? = some ((j : Int), (failCount 2 2 sampleMatrix j : Int)) ∧
          r.errList[j]? = some ((j : Int), (errorCount 2 2 sampleMatrix j : Int)) :=
  ⟨by decide, by decide, by decide, by decide, by decide,
    barChart_fail_err_counts 2 2 sampleMatrix (by decide)⟩

/-! ## Strings -/

theorem indexColon_nonneg_of_mem (s : GoString) (h : ':' ∈ s) :
    ∃ pre post, s = pre ++ ':' :: post ∧ ':' ∉ pre ∧ indexColon s = (pre.length : Int) := by
  induction s with
  | nil => cases h
  | cons c cs ih =>
    by_cases hc : c = ':'
    · exact ⟨[], cs, by simp [hc], by simp, by simp [indexColon, hc]⟩
    · have hmem : ':' ∈ cs := by
        rcases List.mem_cons.1 h with h' | h'
        · exact absurd h'.symm hc
        · exact h'
      obtain ⟨pre, post, hs, hpre, hidx⟩ := ih hmem
      refine ⟨c :: pre, post, by simp [hs], ?_, ?_⟩
      · simp only [List.mem_cons, not_or]
        exact ⟨fun h' => hc h'.symm, hpre⟩
      · have hnot : ¬ ((pre.length : Int) < 0) := by omega
        simp [indexColon, hc, hidx, hnot]

theorem indexColon_of_not_mem (s : GoString) (h : ':' ∉ s) : indexColon s = -1 := by
  induction s with
  | nil => rfl
  | cons c cs ih =>
    simp only [List.mem_cons, not_or] at h
    have hc : c ≠ ':' := fun h' => h.1 h'.symm
    simp [indexColon, hc, ih h.2]

theorem indexColon_split (pre post : GoString) (hpre : ':' ∉ pre) :
    indexColon (pre ++ ':' :: post) = (pre.length : Int) := by
  induction pre with
  | nil => simp [indexColon]
  | cons c cs ih =>
    simp only [List.mem_cons, not_or] at hpre
    have hc : c ≠ ':' := fun h' => hpre.1 h'.symm
    have hnot : ¬ ((cs.length : Int) < 0) := by omega
    simp [indexColon, hc, ih hpre.2, hnot]

theorem parseHeader_of_split (pre post : GoString) (hpre : ':' ∉ pre) :
    parseHeader (pre ++ ':' :: post) = some (trimSpace pre, trimSpace post) := by
  have hidx := indexColon_split pre post hpre
  have h1 : (pre.length : Int) ≤ ((pre ++ ':' :: post).length : Int) := by
    simp only [List.length_append, List.length_cons]; omega
  have h2 : (pre.length : Int) + 1 ≤ ((pre ++ ':' :: post).length : Int) := by
    simp only [List.length_append, List.length_cons]; omega
  have h3 : ((pre.length : Int) + 1).toNat = pre.length + 1 := by omega
  have h0 : (0 : Int) ≤ (pre.length : Int) := by omega
  have h0' : (0 : Int) ≤ (pre.length : Int) + 1 := by omega
  simp only [parseHeader, hidx, sliceTo, sliceFrom, h0, h0', h1, h2, and_self, if_true,
    Option.some_bind, Int.toNat_ofNat, h3]
  simp

theorem parseHeader_none_of_not_mem (s : GoString) (h : ':' ∉ s) : parseHeader s = none := by
  simp [parseHeader, indexColon_of_not_mem s h, sliceTo]

theorem setHeaders_isSome (headers : List GoString) (h : ∀ x ∈ headers, ':' ∈ x) :
    ∃ l, setHeaders headers = some l := by
  induction headers with
  | nil => exact ⟨[], rfl⟩
  | cons x xs ih =>
    obtain ⟨l, hl⟩ := ih fun y hy => h y (List.mem_cons_of_mem _ hy)
    obtain ⟨pre, post, hs, hpre, -⟩ := indexColon_nonneg_of_mem x (h x (List.mem_cons_self _ _))
    exact ⟨(trimSpace pre, trimSpace post) :: l,
      by simp [setHeaders, hl, hs, parseHeader_of_split pre post hpre]⟩

/-! ## Claims on the verification rule and the request builder -/

/-- C10: for every header string with at least one colon, splitting at the
first colon stays in range and `main` passes to `Header.Set` the trimmed text
before the first colon as name and the trimmed text after it as value: the
header is `pre ++ ":" ++ post` with no colon in `pre`, and the pair is
`(trimSpace pre, trimSpace post)`. -/
theorem parseHeader_first_colon (header : GoString) (h : ':' ∈ header) :
    ∃ pre post, header = pre ++ ':' :: post ∧ ':' ∉ pre ∧
      parseHeader header = some (trimSpace pre, trimSpace post) := by
  obtain ⟨pre, post, hs, hpre, -⟩ := indexColon_nonneg_of_mem header h
  exact ⟨pre, post, hs, hpre, hs ▸ parseHeader_of_split pre post hpre⟩

/-- Witness of C10: "X-A : b:c " gives the name "X-A" and the value "b:c". -/
theorem parseHeader_first_colon_witness :
    ':' ∈ "X-A : b:c ".toList ∧
      parseHeader "X-A : b:c ".toList = some ("X-A".toList, "b:c".toList) ∧
      ∃ pre post, "X-A : b:c ".toList = pre ++ ':' :: post ∧ ':' ∉ pre ∧
        parseHeader "X-A : b:c ".toList = some (trimSpace pre, trimSpace post) :=
  ⟨by decide, by decide, parseHeader_first_colon "X-A : b:c ".toList (by decide)⟩

/-! ## The index map -/

theorem rowIndex_div {M ii j : Nat} (hj : j < M) : rowIndex M ii j / M = ii := by
  unfold rowIndex
  rw [Nat.mul_comm, Nat.mul_add_div (by omega), Nat.div_eq_of_lt hj, Nat.add_zero]

theorem rowIndex_mod {M ii j : Nat} (hj : j < M) : rowIndex M ii j % M = j := by
  unfold rowIndex
  rw [Nat.mul_comm, Nat.mul_add_mod, Nat.mod_eq_of_lt hj]

theorem rowIndex_inj {M ii j ii' j' : Nat} (hj : j < M) (hj' : j' < M)
    (h : rowIndex M ii j = rowIndex M ii' j') : ii = ii' ∧ j = j' := by
  constructor
  · have h1 := @rowIndex_div M ii j hj
    rw [h, rowIndex_div hj'] at h1
    exact h1.symm
  · have h1 := @rowIndex_mod M ii j hj
    rw [h, rowIndex_mod hj'] at h1
    exact h1.symm

theorem rowIndex_div_mod (M k : Nat) : rowIndex M (k / M) (k % M) = k := by
  unfold rowIndex
  rw [Nat.mul_comm]
  exact Nat.div_add_mod k M

theorem rowIndex_lt {N M ii j : Nat} (hi : ii < N) (hj : j < M) : rowIndex M ii j < N * M :=
  cell_index_lt hi hj

theorem cellIndex_eq_wrap (M ii j : Nat) :
    cellIndex M ii j = wrap64 ((rowIndex M ii j : Nat) : Int) := by
  unfold cellIndex rowIndex
  rw [wrap64_add_left]
  push_cast
  rfl

theorem cellIndex_eq_rowIndex {M ii j : Nat} (h : rowIndex M ii j < 2 ^ 63) :
    cellIndex M ii j = ((rowIndex M ii j : Nat) : Int) := by
  rw [cellIndex_eq_wrap]
  exact wrap64_of_range (by omega) (by omega)

theorem cellAt_natCast (arr : List WebResult) (k : Nat) : cellAt arr (k : Int) = arr[k]? := by
  simp [cellAt]

theorem cellAt_eq_some {arr : List WebResult} {idx : Int} {c : WebResult}
    (h : cellAt arr idx = some c) : 0 ≤ idx ∧ idx < (arr.length : Int) := by
  unfold cellAt at h
  split at h
  · rename_i h0
    have hlt : idx.toNat < arr.length := by
      by_contra hcon
      rw [List.getElem?_eq_none (not_lt.1 hcon)] at h
      cases h
    exact ⟨h0, by omega⟩
  · cases h

theorem initMatrix_of_bound {N M : Nat} (h : N * M < 2 ^ 63) :
    initMatrix N M = some (List.replicate (N * M) WebResult.zero) := by
  have hw : wrap64 ((N : Int) * (M : Int)) = ((N * M : Nat) : Int) := by
    push_cast
    have : ((N : Int) * (M : Int)) = ((N * M : Nat) : Int) := by push_cast; rfl
    rw [this]
    exact wrap64_of_range (by omega) (by omega)
  unfold initMatrix
  rw [hw, if_pos (Int.ofNat_nonneg _), Int.toNat_ofNat]

/-! ## One iteration of a worker -/

theorem iteration_spec (cfg : Config) (ii j : Nat) (o : Outcome) (arr : List WebResult)
    (hreq : cfg.requestValid = true)
    (hs : List (GoString × GoString)) (hh : setHeaders cfg.headers = some hs)
    (hb : rowIndex cfg.iterations ii j < 2 ^ 63)
    (hz : arr[rowIndex cfg.iterations ii j]? = some WebResult.zero) :
    ∃ c ev, iteration cfg ii j o arr = some (arr.set (rowIndex cfg.iterations ii j) c, ev) ∧
      (c.err ≠ none → c.verify = false ∧ c.duration = 0) ∧
      (∀ k, ev.countP (Event.writesTo k) = if rowIndex cfg.iterations ii j = k then 1 else 0) ∧
      (∀ ii' k, Event.record ii' k ∈ ev → ii' = ii ∧ k = rowIndex cfg.iterations ii j) := by
  have hcell : cellAt arr (cellIndex cfg.iterations ii j) = some WebResult.zero := by
    rw [cellIndex_eq_rowIndex hb, cellAt_natCast, hz]
  have hnat : (cellIndex cfg.iterations ii j).toNat = rowIndex cfg.iterations ii j := by
    rw [cellIndex_eq_rowIndex hb, Int.toNat_ofNat]
  cases o with
  | transportError e =>
    refine ⟨_, _, by simp only [iteration, hreq, if_true, hh, hcell, hnat, Option.some_bind]; rfl,
      ?_, ?_, ?_⟩
    · intro _; exact ⟨rfl, rfl⟩
    · intro k; by_cases hk : rowIndex cfg.iterations ii j = k <;>
        simp [List.countP_cons, Event.writesTo, hk]
    · intro ii' k hmem; simpa using hmem
  | readError e =>
    refine ⟨_, _, by simp only [iteration, hreq, if_true, hh, hcell, hnat, Option.some_bind]; rfl,
      ?_, ?_, ?_⟩
    · intro _; exact ⟨rfl, rfl⟩
    · intro k; by_cases hk : rowIndex cfg.iterations ii j = k <;>
        simp [List.countP_cons, Event.writesTo, hk]
    · intro ii' k hmem; simpa using hmem
  | success body elapsed =>
    refine ⟨_, _, by simp only [iteration, hreq, if_true, hh, hcell, hnat, Option.some_bind]; rfl,
      ?_, ?_, ?_⟩
    · intro h; exact absurd rfl h
    · intro k; by_cases hk : rowIndex cfg.iterations ii j = k <;>
        simp [List.countP_cons, Event.writesTo, hk]
    · intro ii' k hmem; simpa using hmem

theorem iteration_eq_some {cfg : Config} {ii j : Nat} {o : Outcome} {arr : List WebResult}
    {r : List WebResult × List Event} (h : iteration cfg ii j o arr = some r) :
    cfg.requestValid = true ∧ (∃ hs, setHeaders cfg.headers = some hs) ∧
      0 ≤ cellIndex cfg.iterations ii j ∧
      cellIndex cfg.iterations ii j < (arr.length : Int) ∧ r.1.length = arr.length := by
  unfold iteration at h
  cases hreq : cfg.requestValid with
  | false => simp [hreq] at h
  | true =>
    cases hh : setHeaders cfg.headers with
    | none => simp [hreq, hh] at h
    | some hs =>
      cases hc : cellAt arr (cellIndex cfg.iterations ii j) with
      | none => simp [hreq, hh, hc] at h
      | some c =>
        obtain ⟨h0, h1⟩ := cellAt_eq_some hc
        refine ⟨rfl, ⟨hs, rfl⟩, h0, h1, ?_⟩
        cases o <;>
          · simp only [hreq, if_true, hh, hc, Option.some_bind, Option.some.injEq] at h
            subst h
            simp

/-! ## Shape of the run, whatever the options -/

theorem runShape_init (cfg : Config) (st : RunState) (h : initState cfg = some st) :
    RunShape cfg st := by
  unfold initState initMatrix at h
  by_cases h0 : 0 ≤ wrap64 ((cfg.clients : Int) * (cfg.iterations : Int))
  · simp only [h0, if_true, Option.map_some', Option.some.injEq] at h
    subst h
    refine ⟨h0, ?_, by simp, ?_, ?_⟩
    · simp only [List.length_replicate]
      exact Int.toNat_of_nonneg h0
    · intro ii p hp
      simp only [List.getElem?_replicate] at hp
      split at hp
      · cases hp; exact Nat.zero_le _
      · cases hp
    · intro ii p j hp hj
      simp only [List.getElem?_replicate] at hp
      split at hp
      · cases hp; exact absurd hj (Nat.not_lt_zero j)
      · cases hp
  · simp [h0] at h

theorem step_shape (cfg : Config) (env : Nat → Nat → Outcome) (st st' : RunState) (ii : Nat)
    (hstep : step cfg env st ii = some st') (hsh : RunShape cfg st) : RunShape cfg st' := by
  unfold step at hstep
  cases hpc : st.pc[ii]? with
  | none =>
    simp only [hpc, Option.some.injEq] at hstep
    subst hstep
    exact hsh
  | some j =>
    simp only [hpc] at hstep
    by_cases hj : j < cfg.iterations
    swap
    · simp only [hj, if_false, Option.some.injEq] at hstep
      subst hstep
      exact hsh
    simp only [hj, if_true] at hstep
    cases hit : iteration cfg ii j (env ii j) st.arr with
    | none => simp [hit] at hstep
    | some r =>
      simp only [hit, Option.map_some', Option.some.injEq] at hstep
      subst hstep
      obtain ⟨-, -, h0, h1, hlen⟩ := iteration_eq_some hit
      refine ⟨hsh.len_nonneg, ?_, by simp [hsh.pc_len], ?_, ?_⟩
      · simp only [hlen]; exact hsh.arr_len
      · intro i p hp
        simp only [List.getElem?_set] at hp
        split at hp
        · split at hp
          · cases hp; exact hj
          · cases hp
        · exact hsh.pc_le i p hp
      · intro i p j' hp hj'
        simp only [hlen]
        simp only [List.getElem?_set] at hp
        by_cases hi : ii = i
        · subst hi
          simp only [if_true] at hp
          split at hp
          · cases hp
            rcases Nat.lt_succ_iff_lt_or_eq.1 hj' with hlt | heq
            · exact hsh.visited ii j j' hpc hlt
            · subst heq; exact ⟨h0, h1⟩
          · cases hp
        · simp only [hi, if_false] at hp
          exact hsh.visited i p j' hp hj'

theorem runFrom_shape (cfg : Config) (env : Nat → Nat → Outcome) (sched : List Nat)
    (st st' : RunState) (hrun : runFrom cfg env st sched = some st') (hsh : RunShape cfg st) :
    RunShape cfg st' := by
  induction sched generalizing st with
  | nil => cases hrun; exact hsh
  | cons ii rest ih =>
    simp only [runFrom] at hrun
    cases hstep : step cfg env st ii with
    | none => simp [hstep] at hrun
    | some st1 =>
      rw [hstep] at hrun
      exact ih st1 hrun (step_shape cfg env st st1 ii hstep hsh)

theorem run_shape (cfg : Config) (env : Nat → Nat → Outcome) (sched : List Nat)
    (st : RunState) (hrun : run cfg env sched = some st) : RunShape cfg st := by
  unfold run at hrun
  cases h0 : initState cfg with
  | none => simp [h0] at hrun
  | some st0 =>
    simp only [h0, Option.some_bind] at hrun
    exact runFrom_shape cfg env sched st0 st hrun (runShape_init cfg st0 h0)

theorem complete_no_overflow (cfg : Config) (st : RunState) (hsh : RunShape cfg st)
    (hdone : st.complete cfg) : cfg.clients * cfg.iterations < 2 ^ 63 := by
  by_contra hcon
  have hP : 2 ^ 63 ≤ cfg.clients * cfg.iterations := not_lt.1 hcon
  have hL : st.arr.length < 2 ^ 63 := by
    have h1 := (wrap64_range ((cfg.clients : Int) * (cfg.iterations : Int))).2
    have h2 := hsh.arr_len
    omega
  have hLP : st.arr.length < cfg.clients * cfg.iterations := lt_of_lt_of_le hL hP
  have hM : 0 < cfg.iterations := by
    rcases Nat.eq_zero_or_pos cfg.iterations with h0 | h0
    · rw [h0] at hLP; simp at hLP
    · exact h0
  have hrow : st.arr.length / cfg.iterations < cfg.clients :=
    Nat.div_lt_of_lt_mul (by rw [Nat.mul_comm]; exact hLP)
  have hvis := hsh.visited (st.arr.length / cfg.iterations) cfg.iterations
    (st.arr.length % cfg.iterations) (hdone _ hrow) (Nat.mod_lt _ hM)
  rw [cellIndex_eq_wrap, rowIndex_div_mod, wrap64_of_range (by omega) (by omega)] at hvis
  omega

/-! ## Invariant of the dispatch loop -/

theorem initState_of_bound (cfg : Config) (hP : cfg.clients * cfg.iterations < 2 ^ 63) :
    initState cfg = some ⟨List.replicate (cfg.clients * cfg.iterations) WebResult.zero,
      List.replicate cfg.clients 0, []⟩ := by
  simp [initState, initMatrix_of_bound hP]

theorem runInv_init (cfg : Config) (hP : cfg.clients * cfg.iterations < 2 ^ 63) :
    RunInv cfg ⟨List.replicate (cfg.clients * cfg.iterations) WebResult.zero,
      List.replicate cfg.clients 0, []⟩ where
  bound := hP
  arr_len := by simp
  pc_len := by simp
  pc_le := by
    intro ii p h
    simp only [List.getElem?_replicate] at h
    split at h
    · cases h; exact Nat.zero_le _
    · cases h
  fresh := by
    intro ii p j h _ hj
    have hii : ii < cfg.clients := by
      simp only [List.getElem?_replicate] at h
      split at h
      · assumption
      · cases h
    have hidx : rowIndex cfg.iterations ii j < cfg.clients * cfg.iterations :=
      rowIndex_lt hii hj
    simp [List.getElem?_replicate, hidx]
  err_zero := by
    intro c hc hne
    simp only at hc
    rw [List.eq_of_mem_replicate hc] at hne
    exact absurd rfl hne
  owner := by intro ii k h; simp at h
  once := by
    intro k
    simp only [List.countP_nil]
    have : (List.replicate cfg.clients 0).getD (k / cfg.iterations) 0 = 0 := by
      simp only [List.getD_eq_getElem?_getD, List.getElem?_replicate]
      split <;> rfl
    simp [this]

theorem step_spec (cfg : Config) (env : Nat → Nat → Outcome) (st : RunState) (ii : Nat)
    (hreq : cfg.requestValid = true)
    (hs : List (GoString × GoString)) (hh : setHeaders cfg.headers = some hs)
    (hinv : RunInv cfg st) :
    ∃ st', step cfg env st ii = some st' ∧ RunInv cfg st' ∧
      st'.pc = (match st.pc[ii]? with
        | some j => if j < cfg.iterations then st.pc.set ii (j + 1) else st.pc
        | none => st.pc) := by
  cases hpc : st.pc[ii]? with
  | none => exact ⟨st, by simp [step, hpc], hinv, rfl⟩
  | some j =>
    by_cases hj : j < cfg.iterations
    swap
    · exact ⟨st, by simp [step, hpc, hj], hinv, by simp [hj]⟩
    have hii : ii < cfg.clients := by
      rw [← hinv.pc_len]
      by_contra hcon
      rw [List.getElem?_eq_none (not_lt.1 hcon)] at hpc
      cases hpc
    have hz := hinv.fresh ii j j hpc (le_refl j) hj
    have hb : rowIndex cfg.iterations ii j < 2 ^ 63 :=
      lt_trans (rowIndex_lt hii hj) hinv.bound
    obtain ⟨c, ev, hit, hc, hcount, hown⟩ :=
      iteration_spec cfg ii j (env ii j) st.arr hreq hs hh hb hz
    refine ⟨⟨st.arr.set (rowIndex cfg.iterations ii j) c, st.pc.set ii (j + 1), st.trace ++ ev⟩,
      by simp [step, hpc, hj, hit], ?_, by simp [hj]⟩
    constructor
    · exact hinv.bound
    · simp [hinv.arr_len]
    · simp [hinv.pc_len]
    · intro i p hp
      simp only [List.getElem?_set] at hp
      split at hp
      · split at hp
        · cases hp; exact hj
        · cases hp
      · exact hinv.pc_le i p hp
    · intro i p j' hp hpj hj'
      simp only [List.getElem?_set] at hp
      have hne : rowIndex cfg.iterations ii j ≠ rowIndex cfg.iterations i j' := by
        intro heq
        obtain ⟨h1, h2⟩ := rowIndex_inj hj hj' heq
        subst h1
        simp only [if_true] at hp
        split at hp
        · cases hp; omega
        · cases hp
      simp only [List.getElem?_set, hne, if_false]
      by_cases hi : ii = i
      · subst hi
        exact hinv.fresh ii j j' hpc (by
          simp only [if_true] at hp
          split at hp
          · cases hp; omega
          · cases hp) hj'
      · simp only [hi, if_false] at hp
        exact hinv.fresh i p j' hp hpj hj'
    · intro c' hc' hne
      rcases List.mem_or_eq_of_mem_set hc' with h | h
      · exact hinv.err_zero c' h hne
      · subst h; exact hc hne
    · intro i k hmem
      rcases List.mem_append.1 hmem with h | h
      · exact hinv.owner i k h
      · obtain ⟨h1, h2⟩ := hown i k h
        subst h1 h2
        refine ⟨hii, ?_, ?_⟩ <;> unfold rowIndex <;> omega
    · intro k
      simp only [List.countP_append, hcount k, hinv.once k]
      by_cases hk : rowIndex cfg.iterations ii j = k
      · subst hk
        have hlen : ii < st.pc.length := by rw [hinv.pc_len]; exact hii
        have hget : st.pc.getD ii 0 = j := by
          simp [List.getD_eq_getElem?_getD, hpc]
        have hgetE : st.pc[ii] = j := by
          rw [List.getElem?_eq_getElem hlen] at hpc
          exact Option.some.inj hpc
        simp [rowIndex_div hj, rowIndex_mod hj, hii, hget, hlen, hgetE]
      · simp only [hk, if_false, Nat.add_zero]
        by_cases hrow : k / cfg.iterations = ii
        · have hlen : ii < st.pc.length := by rw [hinv.pc_len]; exact hii
          have hget : st.pc.getD ii 0 = j := by
            simp [List.getD_eq_getElem?_getD, hpc]
          have hmod : k % cfg.iterations ≠ j := by
            intro hm
            apply hk
            rw [← hrow, ← hm]
            exact rowIndex_div_mod _ _
          rw [hrow]
          have h1 : (k % cfg.iterations < (st.pc.set ii (j + 1)).getD ii 0) ↔
              (k % cfg.iterations < st.pc.getD ii 0) := by
            simp [List.getD_eq_getElem?_getD, hlen, hpc]
            omega
          simp only [h1]
        · have h1 : (st.pc.set ii (j + 1)).getD (k / cfg.iterations) 0 =
              st.pc.getD (k / cfg.iterations) 0 := by
            simp [List.getD_eq_getElem?_getD, List.getElem?_set, Ne.symm hrow]
          rw [h1]

theorem runFrom_spec (cfg : Config) (env : Nat → Nat → Outcome)
    (hreq : cfg.requestValid = true)
    (hs : List (GoString × GoString)) (hh : setHeaders cfg.headers = some hs)
    (sched : List Nat) (st : RunState) (hinv : RunInv cfg st) :
    ∃ st', runFrom cfg env st sched = some st' ∧ RunInv cfg st' := by
  induction sched generalizing st with
  | nil => exact ⟨st, rfl, hinv⟩
  | cons ii rest ih =>
    obtain ⟨st1, h1, hinv1, -⟩ := step_spec cfg env st ii hreq hs hh hinv
    obtain ⟨st2, h2, hinv2⟩ := ih st1 hinv1
    exact ⟨st2, by simp [runFrom, h1, h2], hinv2⟩

theorem run_spec (cfg : Config) (env : Nat → Nat → Outcome)
    (hP : cfg.clients * cfg.iterations < 2 ^ 63) (hreq : cfg.requestValid = true)
    (hh : ∀ x ∈ cfg.headers, ':' ∈ x) (sched : List Nat) :
    ∃ st, run cfg env sched = some st ∧ RunInv cfg st := by
  obtain ⟨hs, hhs⟩ := setHeaders_isSome cfg.headers hh
  obtain ⟨st, hst, hinv⟩ := runFrom_spec cfg env hreq hs hhs sched _ (runInv_init cfg hP)
  exact ⟨st, by simp only [run, initState_of_bound cfg hP, Option.some_bind, hst], hinv⟩

/-! ## The sequential interleaving completes -/

theorem runFrom_append (cfg : Config) (env : Nat → Nat → Outcome) (a b : List Nat)
    (st : RunState) :
    runFrom cfg env st (a ++ b) = (runFrom cfg env st a).bind fun st' => runFrom cfg env st' b := by
  induction a generalizing st with
  | nil => rfl
  | cons x xs ih =>
    simp only [List.cons_append, runFrom]
    cases step cfg env st x with
    | none => rfl
    | some st1 => simp [ih]

theorem runFrom_replicate (cfg : Config) (env : Nat → Nat → Outcome)
    (hreq : cfg.requestValid = true)
    (hs : List (GoString × GoString)) (hh : setHeaders cfg.headers = some hs)
    (ii n : Nat) (st : RunState) (hinv : RunInv cfg st) (p : Nat)
    (hp : st.pc[ii]? = some p) (hpn : p + n ≤ cfg.iterations) :
    ∃ st', runFrom cfg env st (List.replicate n ii) = some st' ∧ RunInv cfg st' ∧
      st'.pc[ii]? = some (p + n) ∧ ∀ i : Nat, i ≠ ii → st'.pc[i]? = st.pc[i]? := by
  induction n generalizing st p with
  | zero => exact ⟨st, rfl, hinv, hp, fun _ _ => rfl⟩
  | succ n ih =>
    obtain ⟨st1, h1, hinv1, hpc1⟩ := step_spec cfg env st ii hreq hs hh hinv
    have hlt : p < cfg.iterations := by omega
    have hlen : ii < st.pc.length := by
      by_contra hcon
      rw [List.getElem?_eq_none (not_lt.1 hcon)] at hp
      cases hp
    simp only [hp, hlt, if_true] at hpc1
    have hp1 : st1.pc[ii]? = some (p + 1) := by simp [hpc1, List.getElem?_set, hlen]
    obtain ⟨st2, h2, hinv2, hp2, hother⟩ := ih st1 hinv1 (p + 1) hp1 (by omega)
    refine ⟨st2, by simp [List.replicate_succ, runFrom, h1, h2], hinv2, ?_, ?_⟩
    · rw [hp2]; congr 1; omega
    · intro i hi
      rw [hother i hi, hpc1]
      simp [List.getElem?_set, Ne.symm hi]

theorem runFrom_sequential (cfg : Config) (env : Nat → Nat → Outcome)
    (hP : cfg.clients * cfg.iterations < 2 ^ 63) (hreq : cfg.requestValid = true)
    (hs : List (GoString × GoString)) (hh : setHeaders cfg.headers = some hs)
    (k : Nat) (hk : k ≤ cfg.clients) :
    ∃ st, runFrom cfg env
        ⟨List.replicate (cfg.clients * cfg.iterations) WebResult.zero,
          List.replicate cfg.clients 0, []⟩
        (sequentialSchedule k cfg.iterations) = some st ∧
      RunInv cfg st ∧ (∀ i : Nat, i < k → st.pc[i]? = some cfg.iterations) ∧
      ∀ i : Nat, k ≤ i → st.pc[i]? = (List.replicate cfg.clients 0)[i]? := by
  induction k with
  | zero =>
    exact ⟨_, rfl, runInv_init cfg hP, fun i hi => absurd hi (Nat.not_lt_zero i),
      fun _ _ => rfl⟩
  | succ k ih =>
    obtain ⟨st, hst, hinv, hdone, hrest⟩ := ih (Nat.le_of_succ_le hk)
    have hpk : st.pc[k]? = some 0 := by
      rw [hrest k (le_refl k)]
      have : k < cfg.clients := hk
      simp [List.getElem?_replicate, this]
    obtain ⟨st', hst', hinv', hp', hother⟩ :=
      runFrom_replicate cfg env hreq hs hh k cfg.iterations st hinv 0 hpk (by omega)
    refine ⟨st', ?_, hinv', ?_, ?_⟩
    · simp only [sequentialSchedule, List.range_succ, List.flatMap_append, List.flatMap_cons,
        List.flatMap_nil, List.append_nil] at hst ⊢
      rw [runFrom_append, hst]
      exact hst'
    · intro i hi
      rcases Nat.lt_succ_iff_lt_or_eq.1 hi with hlt | rfl
      · rw [hother i (by omega)]; exact hdone i hlt
      · simpa using hp'
    · intro i hi
      rw [hother i (by omega)]
      exact hrest i (by omega)

theorem run_sequential_complete (cfg : Config) (env : Nat → Nat → Outcome)
    (hP : cfg.clients * cfg.iterations < 2 ^ 63) (hreq : cfg.requestValid = true)
    (hh : ∀ x ∈ cfg.headers, ':' ∈ x) :
    ∃ st, run cfg env (sequentialSchedule cfg.clients cfg.iterations) = some st ∧
      RunInv cfg st ∧ st.complete cfg := by
  obtain ⟨hs, hhs⟩ := setHeaders_isSome cfg.headers hh
  obtain ⟨st, hst, hinv, hdone, -⟩ :=
    runFrom_sequential cfg env hP hreq hs hhs cfg.clients (le_refl _)
  exact ⟨st, by simp only [run, initState_of_bound cfg hP, Option.some_bind, hst], hinv, hdone⟩

/-! ## Every state of a run -/

theorem step_inv (cfg : Config) (env : Nat → Nat → Outcome) (st st' : RunState) (ii : Nat)
    (hstep : step cfg env st ii = some st') (hinv : RunInv cfg st) : RunInv cfg st' := by
  by_cases hok : cfg.requestValid = true ∧ ∃ hs, setHeaders cfg.headers = some hs
  · obtain ⟨hreq, hs, hh⟩ := hok
    obtain ⟨st1, h1, hinv1, -⟩ := step_spec cfg env st ii hreq hs hh hinv
    rw [hstep] at h1
    cases h1
    exact hinv1
  · unfold step at hstep
    split at hstep
    · cases hstep; exact hinv
    · split at hstep
      · exfalso
        rename_i j _ _
        cases hit : iteration cfg ii j (env ii j) st.arr with
        | none => simp [hit] at hstep
        | some r =>
          obtain ⟨hreq, hhs, -⟩ := iteration_eq_some hit
          exact hok ⟨hreq, hhs⟩
      · cases hstep; exact hinv

theorem runFrom_inv (cfg : Config) (env : Nat → Nat → Outcome) (sched : List Nat)
    (st st' : RunState) (hrun : runFrom cfg env st sched = some st') (hinv : RunInv cfg st) :
    RunInv cfg st' := by
  induction sched generalizing st with
  | nil => cases hrun; exact hinv
  | cons ii rest ih =>
    simp only [runFrom] at hrun
    cases hstep : step cfg env st ii with
    | none => simp [hstep] at hrun
    | some st1 =>
      rw [hstep] at hrun
      exact ih st1 hrun (step_inv cfg env st st1 ii hstep hinv)

theorem run_inv (cfg : Config) (env : Nat → Nat → Outcome) (sched : List Nat)
    (hP : cfg.clients * cfg.iterations < 2 ^ 63)
    (st : RunState) (hrun : run cfg env sched = some st) : RunInv cfg st := by
  simp only [run, initState_of_bound cfg hP, Option.some_bind] at hrun
  exact runFrom_inv cfg env sched _ st hrun (runInv_init cfg hP)

theorem run_inv_of_complete (cfg : Config) (env : Nat → Nat → Outcome) (sched : List Nat)
    (st : RunState) (hrun : run cfg env sched = some st) (hdone : st.complete cfg) :
    RunInv cfg st :=
  run_inv cfg env sched
    (complete_no_overflow cfg st (run_shape cfg env sched st hrun) hdone) st hrun

theorem errorCount_le_failCount (N M : Nat) (arr : List WebResult) (j : Nat)
    (h : ∀ c ∈ arr, c.err ≠ none → c.verify = false ∧ c.duration = 0) :
    errorCount N M arr j ≤ failCount N M arr j := by
  unfold errorCount failCount
  apply List.countP_mono_left
  intro i _ hi
  cases hc : arr[i * M + j]? with
  | none => simp [hc] at hi
  | some c =>
    simp only [hc] at hi ⊢
    have hne : c.err ≠ none := by
      intro h0; rw [h0] at hi; cases hi
    simp [(h c (List.getElem?_mem hc) hne).1]

theorem failCount_le (N M : Nat) (arr : List WebResult) (j : Nat) :
    failCount N M arr j ≤ N := by
  unfold failCount
  exact le_trans (List.countP_le_length _) (by simp)

theorem recorded_once_of_complete (cfg : Config) (st : RunState) (hinv : RunInv cfg st)
    (hdone : st.complete cfg) (k : Nat) (hk : k < cfg.clients * cfg.iterations) :
    st.trace.countP (Event.writesTo k) = 1 := by
  have hM : 0 < cfg.iterations := by
    rcases Nat.eq_zero_or_pos cfg.iterations with h0 | h0
    · rw [h0] at hk; simp at hk
    · exact h0
  have hrow : k / cfg.iterations < cfg.clients :=
    Nat.div_lt_of_lt_mul (by rw [Nat.mul_comm]; exact hk)
  have hget : st.pc.getD (k / cfg.iterations) 0 = cfg.iterations := by
    simp [List.getD_eq_getElem?_getD, hdone _ hrow]
  rw [hinv.once k, hget, if_pos ⟨hrow, Nat.mod_lt k hM⟩]

theorem recorded_by_owner (cfg : Config) (st : RunState) (hinv : RunInv cfg st)
    (ii k : Nat) (hmem : Event.record ii k ∈ st.trace) :
    ii < cfg.clients ∧ ∃ j, j < cfg.iterations ∧ k = rowIndex cfg.iterations ii j ∧
      (k : Int) = cellIndex cfg.iterations ii j := by
  obtain ⟨h1, h2, h3⟩ := hinv.owner ii k hmem
  have hj : k - ii * cfg.iterations < cfg.iterations := by omega
  have hk : k = rowIndex cfg.iterations ii (k - ii * cfg.iterations) := by
    unfold rowIndex; omega
  refine ⟨h1, k - ii * cfg.iterations, hj, hk, ?_⟩
  rw [cellIndex_eq_rowIndex (lt_trans (rowIndex_lt h1 hj) hinv.bound), ← hk]

theorem barChart_of_runInv (cfg : Config) (st : RunState) (hinv : RunInv cfg st) :
    ∃ r, barChart cfg.clients cfg.iterations st.arr = some r ∧
      ∀ j : Nat, j < cfg.iterations →
        ∃ fail err : Nat,
          r.failList[j]? = some ((j : Int), (fail : Int)) ∧
          r.errList[j]? = some ((j : Int), (err : Int)) ∧
          fail = failCount cfg.clients cfg.iterations st.arr j ∧
          err = errorCount cfg.clients cfg.iterations st.arr j ∧
          err ≤ fail ∧ fail ≤ cfg.clients ∧ 0 ≤ (err : Int) := by
  obtain ⟨r, hr, -, -, -, hval⟩ := barChart_spec cfg.clients cfg.iterations st.arr hinv.arr_len
  refine ⟨r, hr, fun j hj => ⟨_, _, (hval j hj).1, (hval j hj).2, rfl, rfl, ?_, ?_, ?_⟩⟩
  · exact errorCount_le_failCount _ _ _ _ hinv.err_zero
  · exact failCount_le _ _ _ _
  · exact Int.ofNat_nonneg _

/-! ## Claims on the dispatch loop -/

/-- C5: in the matrix after every run of the dispatch loop in which all workers
have finished, under every interleaving of the workers and whatever the outcome
of each call, a cell with an error has `verify = false` and `duration = 0`, so
an error and `verify = true` never occur together. When `clients * iterations`
fits in a Go `int` the same holds in every intermediate state of the run, and
if moreover `http.NewRequest` accepts the request and every header string has a
colon, the run does not panic and the sequential interleaving runs every worker
to completion. -/
theorem run_error_cell_zeroed (cfg : Config) (env : Nat → Nat → Outcome) (sched : List Nat) :
    (∀ st, run cfg env sched = some st → st.complete cfg →
      ∀ c ∈ st.arr, c.err ≠ none → c.verify = false ∧ c.duration = 0) ∧
    (cfg.clients * cfg.iterations < 2 ^ 63 →
      ∀ st, run cfg env sched = some st →
        ∀ c ∈ st.arr, c.err ≠ none → c.verify = false ∧ c.duration = 0) ∧
    (cfg.clients * cfg.iterations < 2 ^ 63 → cfg.requestValid = true →
      (∀ x ∈ cfg.headers, ':' ∈ x) →
      (∃ st, run cfg env sched = some st ∧
        st.arr.length = cfg.clients * cfg.iterations) ∧
      ∃ st, run cfg env (sequentialSchedule cfg.clients cfg.iterations) = some st ∧
        st.complete cfg ∧
        ∀ c ∈ st.arr, c.err ≠ none → c.verify = false ∧ c.duration = 0) := by
  refine ⟨fun st hrun hdone => (run_inv_of_complete cfg env sched st hrun hdone).err_zero,
    fun hP st hrun => (run_inv cfg env sched hP st hrun).err_zero,
    fun hP hreq hh => ⟨?_, ?_⟩⟩
  · obtain ⟨st, hst, hinv⟩ := run_spec cfg env hP hreq hh sched
    exact ⟨st, hst, hinv.arr_len⟩
  · obtain ⟨st, hst, hinv, hdone⟩ := run_sequential_complete cfg env hP hreq hh
    exact ⟨st, hst, hdone, hinv.err_zero⟩

/-- Witness of C5 on the sample run, in which one call is refused and one
body read fails. -/
theorem run_error_cell_zeroed_witness :
    run sampleConfig sampleEnv sampleSchedule = some sampleRunState ∧
      sampleRunState.complete sampleConfig ∧
      ∀ c ∈ sampleRunState.arr, c.err ≠ none → c.verify = false ∧ c.duration = 0 :=
  ⟨by decide, by decide,
    (run_error_cell_zeroed sampleConfig sampleEnv sampleSchedule).1 sampleRunState
      (by decide) (by decide)⟩

/-- C6 (as stated, refuted): the length at line 68 and the index at line 82
are computed in Go `int`. With 3 clients and 6148914691236517206 iterations the
product wraps to 2, the matrix has two cells, and the first index of client 1
is 6148914691236517206, out of range: its first pass panics. With `2^32 + 1`
clients and `2^32` iterations, client 0 and client `2^32` get the same index 0
at iteration 0. -/
theorem cellIndex_overflow_counterexample :
    initMatrix 3 6148914691236517206 = some [WebResult.zero, WebResult.zero] ∧
      cellIndex 6148914691236517206 1 0 = 6148914691236517206 ∧
      cellAt [WebResult.zero, WebResult.zero] (cellIndex 6148914691236517206 1 0) = none ∧
      run overflowConfig sampleEnv [1] = none ∧
      (4294967296 < aliasConfig.clients ∧
        cellIndex aliasConfig.iterations 0 0 = cellIndex aliasConfig.iterations 4294967296 0) := by
  decide

/-- C6 (amended): when `N * M` fits in a Go `int` (`N * M < 2^63`), the matrix
has `N * M` cells and the index `ii*M + j` maps the pairs with `ii < N` and
`j < M` one-to-one onto `[0, N*M)`: it is in bounds, two different pairs never
give the same index, and every index below `N*M` is the index of a pair; in
every run each recording goes to a cell in the row of the recording worker, no
cell is recorded twice, and once every worker has finished every cell has been
recorded exactly once; the sequential interleaving reaches such a state when
`http.NewRequest` accepts the request and every header string has a colon.
Whatever `N` and `M`, a run in which every worker has finished has
`N * M < 2^63`, so after it every cell has been recorded exactly once, by the
worker of its row. -/
theorem cellIndex_partition (cfg : Config) (env : Nat → Nat → Outcome) (sched : List Nat) :
    (cfg.clients * cfg.iterations < 2 ^ 63 →
      (∃ arr, initMatrix cfg.clients cfg.iterations = some arr ∧
        arr.length = cfg.clients * cfg.iterations) ∧
      (∀ ii j, ii < cfg.clients → j < cfg.iterations →
        0 ≤ cellIndex cfg.iterations ii j ∧
        cellIndex cfg.iterations ii j < ((cfg.clients * cfg.iterations : Nat) : Int)) ∧
      (∀ ii j ii' j', ii < cfg.clients → j < cfg.iterations →
        ii' < cfg.clients → j' < cfg.iterations →
        cellIndex cfg.iterations ii j = cellIndex cfg.iterations ii' j' → ii = ii' ∧ j = j') ∧
      (∀ k : Nat, k < cfg.clients * cfg.iterations →
        ∃ ii j, ii < cfg.clients ∧ j < cfg.iterations ∧
          cellIndex cfg.iterations ii j = (k : Int)) ∧
      (∀ st, run cfg env sched = some st →
        st.arr.length = cfg.clients * cfg.iterations ∧
        (∀ ii k, Event.record ii k ∈ st.trace →
          ii < cfg.clients ∧
            ∃ j, j < cfg.iterations ∧ (k : Int) = cellIndex cfg.iterations ii j) ∧
        (∀ k, st.trace.countP (Event.writesTo k) ≤ 1) ∧
        (st.complete cfg → ∀ k, k < cfg.clients * cfg.iterations →
          st.trace.countP (Event.writesTo k) = 1)) ∧
      (cfg.requestValid = true → (∀ x ∈ cfg.headers, ':' ∈ x) →
        ∃ st, run cfg env (sequentialSchedule cfg.clients cfg.iterations) = some st ∧
          st.complete cfg ∧
          ∀ k, k < cfg.clients * cfg.iterations →
            st.trace.countP (Event.writesTo k) = 1)) ∧
    (∀ st, run cfg env sched = some st → st.complete cfg →
      cfg.clients * cfg.iterations < 2 ^ 63 ∧
      st.arr.length = cfg.clients * cfg.iterations ∧
      (∀ k, k < cfg.clients * cfg.iterations → st.trace.countP (Event.writesTo k) = 1) ∧
      (∀ ii k, Event.record ii k ∈ st.trace →
        ii < cfg.clients ∧
          ∃ j, j < cfg.iterations ∧ (k : Int) = cellIndex cfg.iterations ii j)) := by
  have hown : ∀ st : RunState, RunInv cfg st → ∀ ii k, Event.record ii k ∈ st.trace →
      ii < cfg.clients ∧ ∃ j, j < cfg.iterations ∧ (k : Int) = cellIndex cfg.iterations ii j := by
    intro st hinv ii k hmem
    obtain ⟨h1, j, hj, -, hk⟩ := recorded_by_owner cfg st hinv ii k hmem
    exact ⟨h1, j, hj, hk⟩
  refine ⟨fun hP => ⟨?_, ?_, ?_, ?_, ?_, ?_⟩, ?_⟩
  · exact ⟨_, initMatrix_of_bound hP, by simp⟩
  · intro ii j hi hj
    have hlt := rowIndex_lt hi hj
    rw [cellIndex_eq_rowIndex (lt_trans hlt hP)]
    exact ⟨Int.ofNat_nonneg _, by exact_mod_cast hlt⟩
  · intro ii j ii' j' hi hj hi' hj' heq
    rw [cellIndex_eq_rowIndex (lt_trans (rowIndex_lt hi hj) hP),
      cellIndex_eq_rowIndex (lt_trans (rowIndex_lt hi' hj') hP)] at heq
    exact rowIndex_inj hj hj' (by exact_mod_cast heq)
  · intro k hk
    have hM : 0 < cfg.iterations := by
      rcases Nat.eq_zero_or_pos cfg.iterations with h0 | h0
      · rw [h0] at hk; simp at hk
      · exact h0
    have hrow : k / cfg.iterations < cfg.clients :=
      Nat.div_lt_of_lt_mul (by rw [Nat.mul_comm]; exact hk)
    refine ⟨k / cfg.iterations, k % cfg.iterations, hrow, Nat.mod_lt k hM, ?_⟩
    rw [cellIndex_eq_rowIndex (by rw [rowIndex_div_mod]; exact lt_trans hk hP), rowIndex_div_mod]
  · intro st hrun
    have hinv := run_inv cfg env sched hP st hrun
    refine ⟨hinv.arr_len, hown st hinv, ?_, recorded_once_of_complete cfg st hinv⟩
    intro k
    rw [hinv.once k]
    split <;> omega
  · intro hreq hh
    obtain ⟨st, hst, hinv, hdone⟩ := run_sequential_complete cfg env hP hreq hh
    exact ⟨st, hst, hdone, recorded_once_of_complete cfg st hinv hdone⟩
  · intro st hrun hdone
    have hinv := run_inv_of_complete cfg env sched st hrun hdone
    exact ⟨hinv.bound, hinv.arr_len, recorded_once_of_complete cfg st hinv hdone, hown st hinv⟩

/-- Witness of C6 on the sample run: the four cells of the 2 x 2 matrix are
each recorded once. -/
theorem cellIndex_partition_witness :
    sampleConfig.clients * sampleConfig.iterations < 2 ^ 63 ∧
      run sampleConfig sampleEnv sampleSchedule = some sampleRunState ∧
      sampleRunState.complete sampleConfig ∧
      ∀ k, k < sampleConfig.clients * sampleConfig.iterations →
        sampleRunState.trace.countP (Event.writesTo k) = 1 :=
  ⟨by decide, by decide, by decide,
    (((cellIndex_partition sampleConfig sampleEnv sampleSchedule).1 (by decide)).2.2.2.2.1
      sampleRunState (by decide)).2.2.2 (by decide)⟩

/-- C7: on the matrix after every run of the dispatch loop in which all workers
have finished, whatever the outcome of each call, `barChart` returns and for
every iteration `j < M` the failure count it puts in `failList[j]` is at least
the error count it puts in `errList[j]`, and both lie between 0 and `N`. When
`N * M` fits in a Go `int` the same holds on the matrix of every intermediate
state, and if moreover `http.NewRequest` accepts the request and every header
string has a colon, the run does not panic. -/
theorem run_fail_ge_error (cfg : Config) (env : Nat → Nat → Outcome) (sched : List Nat) :
    (∀ st, run cfg env sched = some st → st.complete cfg →
      ∃ r, barChart cfg.clients cfg.iterations st.arr = some r ∧
        ∀ j : Nat, j < cfg.iterations →
          ∃ fail err : Nat,
            r.failList[j]? = some ((j : Int), (fail : Int)) ∧
            r.errList[j]? = some ((j : Int), (err : Int)) ∧
            fail = failCount cfg.clients cfg.iterations st.arr j ∧
            err = errorCount cfg.clients cfg.iterations st.arr j ∧
            err ≤ fail ∧ fail ≤ cfg.clients ∧ 0 ≤ (err : Int)) ∧
    (cfg.clients * cfg.iterations < 2 ^ 63 →
      ∀ st, run cfg env sched = some st →
        ∃ r, barChart cfg.clients cfg.iterations st.arr = some r ∧
          ∀ j : Nat, j < cfg.iterations →
            ∃ fail err : Nat,
              r.failList[j]? = some ((j : Int), (fail : Int)) ∧
              r.errList[j]? = some ((j : Int), (err : Int)) ∧
              fail = failCount cfg.clients cfg.iterations st.arr j ∧
              err = errorCount cfg.clients cfg.iterations st.arr j ∧
              err ≤ fail ∧ fail ≤ cfg.clients ∧ 0 ≤ (err : Int)) ∧
    (cfg.clients * cfg.iterations < 2 ^ 63 → cfg.requestValid = true →
      (∀ x ∈ cfg.headers, ':' ∈ x) → ∃ st, run cfg env sched = some st) :=
  ⟨fun st hrun hdone =>
      barChart_of_runInv cfg st (run_inv_of_complete cfg env sched st hrun hdone),
    fun hP st hrun => barChart_of_runInv cfg st (run_inv cfg env sched hP st hrun),
    fun hP hreq hh => (run_spec cfg env hP hreq hh sched).imp fun _ h => h.1⟩

/-- Witness of C7 on the sample run: each iteration has one failure and one
error. -/
theorem run_fail_ge_error_witness :
    run sampleConfig sampleEnv sampleSchedule = some sampleRunState ∧
      sampleRunState.complete sampleConfig ∧
      (barChart 2 2 sampleRunState.arr).map BarChart.failList = some [(0, 1), (1, 1)] ∧
      (barChart 2 2 sampleRunState.arr).map BarChart.errList = some [(0, 1), (1, 1)] ∧
      ∃ r, barChart sampleConfig.clients sampleConfig.iterations sampleRunState.arr = some r ∧
        ∀ j : Nat, j < sampleConfig.iterations →
          ∃ fail err : Nat,
            r.failList[j]? = some ((j : Int), (fail : Int)) ∧
            r.errList[j]? = some ((j : Int), (err : Int)) ∧
            fail = failCount sampleConfig.clients sampleConfig.iterations sampleRunState.arr j ∧
            err = errorCount sampleConfig.clients sampleConfig.iterations sampleRunState.arr j ∧
            err ≤ fail ∧ fail ≤ sampleConfig.clients ∧ 0 ≤ (err : Int) :=
  ⟨by decide, by decide, by decide, by decide,
    (run_fail_ge_error sampleConfig sampleEnv sampleSchedule).1 sampleRunState
      (by decide) (by decide)⟩

/-- C9 (evaluation of the failing path): a pass through the loop body sleeps
exactly when the body of the response was read; after a transport failure or a
body-read failure the worker takes `continue` and starts the next iteration
without sleeping. With two iterations, a delay of 100 ms and a refused first
call, client 0 of the sample run makes its second call right after recording
the first outcome. -/
theorem worker_skips_delay_after_failure :
    (∀ cfg ii j o arr,
      (iteration cfg ii j o arr).map (fun r => r.2.any Event.isSleep) =
        (iteration cfg ii j o arr).map (fun _ => o.isSuccess)) ∧
    sampleEnv 0 0 = Outcome.transportError "connection refused".toList ∧
    ((initMatrix 2 2).bind (worker sampleConfig sampleEnv 0)).map Prod.snd =
      some [Event.call 0 0, Event.record 0 0,
        Event.call 0 1, Event.record 0 1, Event.sleep 0 100000000] := by
  refine ⟨?_, by decide, by decide⟩
  intro cfg ii j o arr
  unfold iteration
  cases hreq : cfg.requestValid with
  | false => simp
  | true =>
    cases hh : setHeaders cfg.headers with
    | none => simp
    | some hs =>
      cases hc : cellAt arr (cellIndex cfg.iterations ii j) with
      | none => simp [hc]
      | some c =>
        cases o <;>
          simp [hc, Event.isSleep, Outcome.isSuccess]

/-! ## `durationChart`: the loops -/

theorem verifiedMs_succ (n M : Nat) (arr : List WebResult) (j : Nat) :
    verifiedMs (n + 1) M arr j = verifiedMs n M arr j ++
      (match arr[n * M + j]? with
        | some c => if c.verify then [milliseconds c.duration] else []
        | none => []) := by
  unfold verifiedMs
  rw [List.range_succ, List.filterMap_append]
  congr 1
  cases hc : arr[n * M + j]? with
  | none => simp [List.filterMap_cons, hc]
  | some c => cases hv : c.verify <;> simp [List.filterMap_cons, hc, hv]

theorem sumLoop_spec (N M : Nat) (arr : List WebResult) (j n : Nat)
    (hlen : arr.length = N * M) (hj : j < M) (hn : n ≤ N) :
    forLoop n (durationChart.sumStep M arr j) (0, 0) =
      some (wrap64 (verifiedMs n M arr j).sum, (verifiedMs n M arr j).length) := by
  induction n with
  | zero => simp [forLoop, verifiedMs, wrap64]
  | succ k ih =>
    have hk : k * M + j < arr.length := hlen ▸ cell_index_lt (Nat.lt_of_succ_le hn) hj
    simp only [forLoop, ih (Nat.le_of_succ_le hn), Option.some_bind, durationChart.sumStep,
      List.getElem?_eq_getElem hk, verifiedMs_succ]
    cases hv : (arr[k * M + j]).verify
    · simp
    · simp [wrap64_add_left]

/-! ## `float64`: rounding -/

theorem log2Floor_go_eq (fuel n : Nat) (h : n ≤ fuel) : log2Floor.go fuel n = Nat.log2 n := by
  induction fuel generalizing n with
  | zero =>
    have h0 : n = 0 := Nat.le_zero.1 h
    subst h0
    simp [log2Floor.go, Nat.log2_zero]
  | succ k ih =>
    rw [log2Floor.go, Nat.log2]
    by_cases h2 : 2 ≤ n
    · have hk : n / 2 ≤ k := by omega
      simp [h2, ih (n / 2) hk]
    · simp [h2]

theorem log2Floor_eq (n : Nat) : log2Floor n = Nat.log2 n :=
  log2Floor_go_eq n n (le_refl n)

theorem two_pow_log2Floor_le {n : Nat} (h : 0 < n) : 2 ^ log2Floor n ≤ n := by
  rw [log2Floor_eq]
  exact Nat.log2_self_le (Nat.pos_iff_ne_zero.1 h)

theorem lt_two_pow_log2Floor (n : Nat) : n < 2 ^ (log2Floor n + 1) := by
  rw [log2Floor_eq]
  exact Nat.lt_log2_self

theorem roundHalfEven_err (num den : Nat) (hden : 0 < den) :
    |((roundHalfEven num den : Nat) : ℚ) - (num : ℚ) / (den : ℚ)| ≤ 1 / 2 := by
  have hd : (0 : ℚ) < (den : ℚ) := by exact_mod_cast hden
  have hsplit : (num : ℚ) = (den : ℚ) * ((num / den : Nat) : ℚ) + ((num % den : Nat) : ℚ) := by
    exact_mod_cast (Nat.div_add_mod num den).symm
  have hr : ((num % den : Nat) : ℚ) < (den : ℚ) := by exact_mod_cast Nat.mod_lt num hden
  have hr0 : (0 : ℚ) ≤ ((num % den : Nat) : ℚ) := by positivity
  have hq : (num : ℚ) / (den : ℚ) = ((num / den : Nat) : ℚ) + ((num % den : Nat) : ℚ) / (den : ℚ) := by
    have hne : (den : ℚ) ≠ 0 := ne_of_gt hd
    field_simp
    linarith
  have hlow : ∀ x : ℚ, x = ((num / den : Nat) : ℚ) → 2 * ((num % den : Nat) : ℚ) ≤ (den : ℚ) →
      |x - (num : ℚ) / (den : ℚ)| ≤ 1 / 2 := by
    intro x hx h2
    rw [hx, hq, abs_le]
    have : ((num % den : Nat) : ℚ) / (den : ℚ) ≤ 1 / 2 := by
      rw [div_le_iff₀ hd]; linarith
    have h0 : 0 ≤ ((num % den : Nat) : ℚ) / (den : ℚ) := div_nonneg hr0 (le_of_lt hd)
    constructor <;> linarith
  have hhigh : ∀ x : ℚ, x = ((num / den : Nat) : ℚ) + 1 → (den : ℚ) ≤ 2 * ((num % den : Nat) : ℚ) →
      |x - (num : ℚ) / (den : ℚ)| ≤ 1 / 2 := by
    intro x hx h2
    rw [hx, hq, abs_le]
    have : 1 / 2 ≤ ((num % den : Nat) : ℚ) / (den : ℚ) := by
      rw [le_div_iff₀ hd]; linarith
    have h1 : ((num % den : Nat) : ℚ) / (den : ℚ) < 1 := by
      rw [div_lt_iff₀ hd]; linarith
    constructor <;> linarith
  unfold roundHalfEven
  simp only
  by_cases c1 : 2 * (num % den) < den
  · simp only [c1, if_true]
    exact hlow _ rfl (by exact_mod_cast le_of_lt c1)
  · by_cases c2 : den < 2 * (num % den)
    · simp only [c1, c2, if_true, if_false]
      exact hhigh _ (by push_cast; ring) (by exact_mod_cast le_of_lt c2)
    · have heq : 2 * (num % den) = den := by omega
      simp only [c1, c2, if_false]
      split
      · exact hlow _ rfl (by exact_mod_cast le_of_eq heq)
      · exact hhigh _ (by push_cast; ring) (by exact_mod_cast le_of_eq heq.symm)

theorem binaryExponent_le_ratio (p q : Nat) (hp : 0 < p) (hq : 0 < q) :
    (2 : ℚ) ^ binaryExponent p q ≤ (p : ℚ) / (q : ℚ) := by
  have hP : (0 : ℚ) < (p : ℚ) := by exact_mod_cast hp
  have hQ : (0 : ℚ) < (q : ℚ) := by exact_mod_cast hq
  have h2 : (2 : ℚ) ≠ 0 := by norm_num
  unfold binaryExponent
  simp only
  by_cases h0 : (0 : Int) ≤ (log2Floor p : Int) - (log2Floor q : Int)
  · by_cases h1 : q * 2 ^ ((log2Floor p : Int) - (log2Floor q : Int)).toNat ≤ p
    · simp only [h0, h1, if_true, decide_True]
      have hk : ((log2Floor p : Int) - (log2Floor q : Int)) =
          ((((log2Floor p : Int) - (log2Floor q : Int)).toNat : Nat) : Int) :=
        (Int.toNat_of_nonneg h0).symm
      rw [hk, zpow_natCast, le_div_iff₀ hQ]
      have : ((q * 2 ^ ((log2Floor p : Int) - (log2Floor q : Int)).toNat : Nat) : ℚ) ≤ (p : ℚ) := by
        exact_mod_cast h1
      push_cast at this
      linarith
    · simp only [h0, h1, if_true, decide_False, if_false, Bool.false_eq_true]
      have e1 : (2 : ℚ) ^ ((log2Floor p : Int) - (log2Floor q : Int) - 1) =
          (2 : ℚ) ^ (log2Floor p) / (2 : ℚ) ^ (log2Floor q + 1) := by
        have : (log2Floor p : Int) - (log2Floor q : Int) - 1 =
            (log2Floor p : Int) - ((log2Floor q + 1 : Nat) : Int) := by push_cast; ring
        rw [this, zpow_sub₀ h2, zpow_natCast, zpow_natCast]
      rw [e1]
      have a1 : (2 : ℚ) ^ (log2Floor p) ≤ (p : ℚ) := by
        exact_mod_cast two_pow_log2Floor_le hp
      have a2 : (q : ℚ) ≤ (2 : ℚ) ^ (log2Floor q + 1) := by
        exact_mod_cast le_of_lt (lt_two_pow_log2Floor q)
      exact div_le_div₀ (le_of_lt hP) a1 hQ a2
  · by_cases h1 : q ≤ p * 2 ^ (-((log2Floor p : Int) - (log2Floor q : Int))).toNat
    · simp only [h0, h1, if_true, if_false, decide_True]
      have hk : ((log2Floor p : Int) - (log2Floor q : Int)) =
          -((((-((log2Floor p : Int) - (log2Floor q : Int))).toNat : Nat)) : Int) := by
        rw [Int.toNat_of_nonneg (by omega)]; ring
      have : ((q : Nat) : ℚ) ≤
          ((p * 2 ^ (-((log2Floor p : Int) - (log2Floor q : Int))).toNat : Nat) : ℚ) := by
        exact_mod_cast h1
      push_cast at this
      rw [hk, zpow_neg, zpow_natCast, le_div_iff₀ hQ]
      have hpos : (0 : ℚ) < (2 : ℚ) ^ (-((log2Floor p : Int) - (log2Floor q : Int))).toNat := by
        positivity
      rw [inv_mul_le_iff₀ hpos]
      linarith
    · simp only [h0, h1, if_false, decide_False, Bool.false_eq_true]
      have e1 : (2 : ℚ) ^ ((log2Floor p : Int) - (log2Floor q : Int) - 1) =
          (2 : ℚ) ^ (log2Floor p) / (2 : ℚ) ^ (log2Floor q + 1) := by
        have : (log2Floor p : Int) - (log2Floor q : Int) - 1 =
            (log2Floor p : Int) - ((log2Floor q + 1 : Nat) : Int) := by push_cast; ring
        rw [this, zpow_sub₀ h2, zpow_natCast, zpow_natCast]
      rw [e1]
      have a1 : (2 : ℚ) ^ (log2Floor p) ≤ (p : ℚ) := by
        exact_mod_cast two_pow_log2Floor_le hp
      have a2 : (q : ℚ) ≤ (2 : ℚ) ^ (log2Floor q + 1) := by
        exact_mod_cast le_of_lt (lt_two_pow_log2Floor q)
      exact div_le_div₀ (le_of_lt hP) a1 hQ a2

theorem binaryExponent_le_log (p q : Nat) :
    binaryExponent p q ≤ (log2Floor p : Int) - (log2Floor q : Int) := by
  unfold binaryExponent
  simp only
  split <;> omega

theorem ratio_lt_binaryExponent_succ (p q : Nat) (hp : 0 < p) (hq : 0 < q) :
    (p : ℚ) / (q : ℚ) < (2 : ℚ) ^ (binaryExponent p q + 1) := by
  have hP : (0 : ℚ) < (p : ℚ) := by exact_mod_cast hp
  have hQ : (0 : ℚ) < (q : ℚ) := by exact_mod_cast hq
  have h2 : (2 : ℚ) ≠ 0 := by norm_num
  have hupper : (p : ℚ) / (q : ℚ) <
      (2 : ℚ) ^ ((log2Floor p : Int) - (log2Floor q : Int) + 1) := by
    have e1 : (2 : ℚ) ^ ((log2Floor p : Int) - (log2Floor q : Int) + 1) =
        (2 : ℚ) ^ (log2Floor p + 1) / (2 : ℚ) ^ (log2Floor q) := by
      have : (log2Floor p : Int) - (log2Floor q : Int) + 1 =
          ((log2Floor p + 1 : Nat) : Int) - ((log2Floor q : Nat) : Int) := by push_cast; ring
      rw [this, zpow_sub₀ h2, zpow_natCast, zpow_natCast]
    rw [e1]
    have a1 : (p : ℚ) < (2 : ℚ) ^ (log2Floor p + 1) := by
      exact_mod_cast lt_two_pow_log2Floor p
    have a2 : (2 : ℚ) ^ (log2Floor q) ≤ (q : ℚ) := by
      exact_mod_cast two_pow_log2Floor_le hq
    have hpow : (0 : ℚ) < (2 : ℚ) ^ (log2Floor q) := by positivity
    rw [div_lt_div_iff₀ hQ hpow]
    nlinarith
  unfold binaryExponent
  simp only
  by_cases h0 : (0 : Int) ≤ (log2Floor p : Int) - (log2Floor q : Int)
  · by_cases h1 : q * 2 ^ ((log2Floor p : Int) - (log2Floor q : Int)).toNat ≤ p
    · simp only [h0, h1, if_true, decide_True]
      exact hupper
    · simp only [h0, h1, if_true, decide_False, if_false, Bool.false_eq_true]
      have hk : ((log2Floor p : Int) - (log2Floor q : Int)) =
          ((((log2Floor p : Int) - (log2Floor q : Int)).toNat : Nat) : Int) :=
        (Int.toNat_of_nonneg h0).symm
      have hlt : ((p : Nat) : ℚ) <
          ((q * 2 ^ ((log2Floor p : Int) - (log2Floor q : Int)).toNat : Nat) : ℚ) := by
        exact_mod_cast not_le.1 h1
      push_cast at hlt
      have e : (log2Floor p : Int) - (log2Floor q : Int) - 1 + 1 =
          (log2Floor p : Int) - (log2Floor q : Int) := by ring
      rw [e, hk, zpow_natCast, div_lt_iff₀ hQ]
      linarith
  · by_cases h1 : q ≤ p * 2 ^ (-((log2Floor p : Int) - (log2Floor q : Int))).toNat
    · simp only [h0, h1, if_true, if_false, decide_True]
      exact hupper
    · simp only [h0, h1, if_false, decide_False, Bool.false_eq_true]
      have hk : ((log2Floor p : Int) - (log2Floor q : Int)) =
          -((((-((log2Floor p : Int) - (log2Floor q : Int))).toNat : Nat)) : Int) := by
        rw [Int.toNat_of_nonneg (by omega)]; ring
      have hlt : ((p * 2 ^ (-((log2Floor p : Int) - (log2Floor q : Int))).toNat : Nat) : ℚ) <
          ((q : Nat) : ℚ) := by
        exact_mod_cast not_le.1 h1
      push_cast at hlt
      have e : (log2Floor p : Int) - (log2Floor q : Int) - 1 + 1 =
          (log2Floor p : Int) - (log2Floor q : Int) := by ring
      have hpos : (0 : ℚ) < (2 : ℚ) ^ (-((log2Floor p : Int) - (log2Floor q : Int))).toNat := by
        positivity
      rw [e, hk, zpow_neg, zpow_natCast, div_lt_iff₀ hQ, lt_inv_mul_iff₀ hpos]
      linarith

theorem roundRatio_spec (p q : Nat) (hp : 0 < p) (hq : 0 < q) :
    |((roundRatio p q).1 : ℚ) * (2 : ℚ) ^ (roundRatio p q).2 - (p : ℚ) / (q : ℚ)|
        ≤ (2 : ℚ) ^ (roundRatio p q).2 / 2 ∧
      (2 : ℚ) ^ ((roundRatio p q).2 + 52) ≤ (p : ℚ) / (q : ℚ) := by
  have hQ : (0 : ℚ) < (q : ℚ) := by exact_mod_cast hq
  have h2 : (2 : ℚ) ≠ 0 := by norm_num
  have hbe := binaryExponent_le_ratio p q hp hq
  unfold roundRatio
  simp only
  by_cases hs : (0 : Int) ≤ 52 - binaryExponent p q
  · simp only [hs, if_true]
    have hk : (52 - binaryExponent p q) = (((52 - binaryExponent p q).toNat : Nat) : Int) :=
      (Int.toNat_of_nonneg hs).symm
    generalize hkk : (52 - binaryExponent p q).toNat = k at hk
    have hpow : (0 : ℚ) < (2 : ℚ) ^ k := by positivity
    have herr := roundHalfEven_err (p * 2 ^ k) q hq
    push_cast at herr
    constructor
    · rw [hk, zpow_neg, zpow_natCast]
      have e1 : ((roundHalfEven (p * 2 ^ k) q : Nat) : ℚ) * ((2 : ℚ) ^ k)⁻¹ - (p : ℚ) / (q : ℚ) =
          (((roundHalfEven (p * 2 ^ k) q : Nat) : ℚ) - (p : ℚ) * 2 ^ k / (q : ℚ)) * ((2 : ℚ) ^ k)⁻¹ := by
        field_simp
        ring
      rw [e1, abs_mul, abs_of_pos (inv_pos.2 hpow)]
      calc |((roundHalfEven (p * 2 ^ k) q : Nat) : ℚ) - (p : ℚ) * 2 ^ k / (q : ℚ)| * ((2 : ℚ) ^ k)⁻¹
          ≤ (1 / 2) * ((2 : ℚ) ^ k)⁻¹ := mul_le_mul_of_nonneg_right herr (le_of_lt (inv_pos.2 hpow))
        _ = ((2 : ℚ) ^ k)⁻¹ / 2 := by ring
    · have : -(52 - binaryExponent p q) + 52 = binaryExponent p q := by ring
      rw [this]
      exact hbe
  · simp only [hs, if_false]
    have hk : -(52 - binaryExponent p q) = (((-(52 - binaryExponent p q)).toNat : Nat) : Int) :=
      (Int.toNat_of_nonneg (by omega)).symm
    generalize hkk : (-(52 - binaryExponent p q)).toNat = k at hk
    have hpow : (0 : ℚ) < (2 : ℚ) ^ k := by positivity
    have hden : 0 < q * 2 ^ k := Nat.mul_pos hq (Nat.pow_pos (by decide))
    have herr := roundHalfEven_err p (q * 2 ^ k) hden
    push_cast at herr
    constructor
    · rw [hk, zpow_natCast]
      have e1 : ((roundHalfEven p (q * 2 ^ k) : Nat) : ℚ) * (2 : ℚ) ^ k - (p : ℚ) / (q : ℚ) =
          (((roundHalfEven p (q * 2 ^ k) : Nat) : ℚ) - (p : ℚ) / ((q : ℚ) * 2 ^ k)) * (2 : ℚ) ^ k := by
        field_simp
        ring
      rw [e1, abs_mul, abs_of_pos hpow]
      calc |((roundHalfEven p (q * 2 ^ k) : Nat) : ℚ) - (p : ℚ) / ((q : ℚ) * 2 ^ k)| * (2 : ℚ) ^ k
          ≤ (1 / 2) * (2 : ℚ) ^ k := mul_le_mul_of_nonneg_right herr (le_of_lt hpow)
        _ = (2 : ℚ) ^ k / 2 := by ring
    · have : -(52 - binaryExponent p q) + 52 = binaryExponent p q := by ring
      rw [this]
      exact hbe

theorem roundRatio_rel (p q : Nat) (hp : 0 < p) (hq : 0 < q) :
    |((roundRatio p q).1 : ℚ) * (2 : ℚ) ^ (roundRatio p q).2 - (p : ℚ) / (q : ℚ)|
      ≤ (p : ℚ) / (q : ℚ) / 2 ^ 53 := by
  obtain ⟨h1, h2⟩ := roundRatio_spec p q hp hq
  refine le_trans h1 ?_
  have e : (2 : ℚ) ^ ((roundRatio p q).2 + 52) = (2 : ℚ) ^ (roundRatio p q).2 * 2 ^ 52 := by
    rw [zpow_add₀ (by norm_num : (2 : ℚ) ≠ 0)]; norm_num
  rw [e] at h2
  have hpos : (0 : ℚ) < (2 : ℚ) ^ (roundRatio p q).2 := by positivity
  rw [div_le_div_iff₀ (by norm_num) (by norm_num)]
  nlinarith

theorem roundRatio_pos (p q : Nat) (hp : 0 < p) (hq : 0 < q) : 0 < (roundRatio p q).1 := by
  obtain ⟨h1, h2⟩ := roundRatio_spec p q hp hq
  have e : (2 : ℚ) ^ ((roundRatio p q).2 + 52) = (2 : ℚ) ^ (roundRatio p q).2 * 2 ^ 52 := by
    rw [zpow_add₀ (by norm_num : (2 : ℚ) ≠ 0)]; norm_num
  rw [e] at h2
  have hpos : (0 : ℚ) < (2 : ℚ) ^ (roundRatio p q).2 := by positivity
  rcases Nat.eq_zero_or_pos (roundRatio p q).1 with h0 | h0
  · exfalso
    rw [h0] at h1
    simp only [Nat.cast_zero, zero_mul, zero_sub, abs_neg] at h1
    have hpq : (0 : ℚ) ≤ (p : ℚ) / (q : ℚ) := by positivity
    rw [abs_of_nonneg hpq] at h1
    nlinarith
  · exact h0

/-! ## `float64`: conversion and division -/

theorem int_sign_cast (z : Int) (hz : z ≠ 0) :
    ∃ σ : ℚ, (σ = 1 ∨ σ = -1) ∧ ((z.sign : Int) : ℚ) = σ ∧ (z : ℚ) = σ * ((z.natAbs : Nat) : ℚ) := by
  have habs : ((z.natAbs : Nat) : ℚ) = |(z : ℚ)| := by
    rw [Nat.cast_natAbs, Int.cast_abs]
  rcases lt_or_gt_of_ne hz with hneg | hpos
  · refine ⟨-1, Or.inr rfl, by rw [Int.sign_eq_neg_one_of_neg hneg]; norm_num, ?_⟩
    have hq : (z : ℚ) < 0 := by exact_mod_cast hneg
    rw [habs, abs_of_neg hq]
    ring
  · refine ⟨1, Or.inl rfl, by rw [Int.sign_eq_one_of_pos hpos]; norm_num, ?_⟩
    have hq : (0 : ℚ) < (z : ℚ) := by exact_mod_cast hpos
    rw [habs, abs_of_pos hq]
    ring

theorem roundHalfEven_one (n : Nat) : roundHalfEven n 1 = n := by
  simp [roundHalfEven, Nat.mod_one]

theorem log2Floor_lt_of_lt {n k : Nat} (hn : 0 < n) (h : n < 2 ^ k) : log2Floor n < k := by
  by_contra hcon
  have h1 : 2 ^ k ≤ 2 ^ log2Floor n := Nat.pow_le_pow_right (by decide) (not_lt.1 hcon)
  have h2 := two_pow_log2Floor_le hn
  omega

theorem roundRatio_one_exact (n : Nat) (hn : 0 < n) (hlt : n < 2 ^ 53) :
    ((roundRatio n 1).1 : ℚ) * (2 : ℚ) ^ (roundRatio n 1).2 = (n : ℚ) := by
  have hlog : log2Floor n < 53 := log2Floor_lt_of_lt hn hlt
  have hbe := binaryExponent_le_log n 1
  have h1 : log2Floor 1 = 0 := by decide
  rw [h1] at hbe
  have hs : (0 : Int) ≤ 52 - binaryExponent n 1 := by omega
  unfold roundRatio
  simp only [hs, if_true, roundHalfEven_one]
  have hk : (52 - binaryExponent n 1) = (((52 - binaryExponent n 1).toNat : Nat) : Int) :=
    (Int.toNat_of_nonneg hs).symm
  generalize (52 - binaryExponent n 1).toNat = k at hk
  rw [hk, zpow_neg, zpow_natCast]
  have hpow : (2 : ℚ) ^ k ≠ 0 := by positivity
  push_cast
  field_simp

theorem ofInt_of_ne_zero (x : Int) (hx : x ≠ 0) :
    F64.ofInt x =
      .finite (x.sign * ((roundRatio x.natAbs 1).1 : Int)) (roundRatio x.natAbs 1).2 := by
  simp [F64.ofInt, hx]

theorem ofInt_exact (x : Int) (h1 : -2 ^ 53 < x) (h2 : x < 2 ^ 53) :
    ∃ m e, F64.ofInt x = .finite m e ∧ (m : ℚ) * (2 : ℚ) ^ e = (x : ℚ) ∧ (x ≠ 0 → m ≠ 0) := by
  by_cases hx : x = 0
  · subst hx
    exact ⟨0, 0, by simp [F64.ofInt, F64.zero], by simp, fun h => absurd rfl h⟩
  · have hn : 0 < x.natAbs := Int.natAbs_pos.2 hx
    have hlt : x.natAbs < 2 ^ 53 := by omega
    obtain ⟨σ, hσ, hsign, hval⟩ := int_sign_cast x hx
    refine ⟨_, _, ofInt_of_ne_zero x hx, ?_, fun _ => ?_⟩
    · push_cast
      rw [hsign, mul_assoc, roundRatio_one_exact x.natAbs hn hlt, ← hval]
    · have hm := roundRatio_pos x.natAbs 1 hn (by decide)
      have hsg : x.sign ≠ 0 := by
        rw [Ne, Int.sign_eq_zero_iff_zero]; exact hx
      exact mul_ne_zero hsg (by exact_mod_cast (Nat.pos_iff_ne_zero.1 hm))

theorem ofInt_pos (x : Int) (hx : 0 < x) :
    ∃ m e, F64.ofInt x = .finite m e ∧ 0 < m := by
  have hn : 0 < x.natAbs := Int.natAbs_pos.2 (ne_of_gt hx)
  have hm := roundRatio_pos x.natAbs 1 hn (by decide)
  refine ⟨_, _, ofInt_of_ne_zero x (ne_of_gt hx), ?_⟩
  rw [Int.sign_eq_one_of_pos hx, one_mul]
  exact_mod_cast hm

theorem ofInt_finite (x : Int) : ∃ m e, F64.ofInt x = .finite m e ∧ (x ≠ 0 → m ≠ 0) := by
  by_cases hx : x = 0
  · subst hx
    exact ⟨0, 0, by simp [F64.ofInt, F64.zero], fun h => absurd rfl h⟩
  · have hn : 0 < x.natAbs := Int.natAbs_pos.2 hx
    have hm := roundRatio_pos x.natAbs 1 hn (by decide)
    have hsg : x.sign ≠ 0 := by
      rw [Ne, Int.sign_eq_zero_iff_zero]; exact hx
    exact ⟨_, _, ofInt_of_ne_zero x hx, fun _ =>
      mul_ne_zero hsg (by exact_mod_cast (Nat.pos_iff_ne_zero.1 hm))⟩

theorem div_finite_pos (ma ea mb eb : Int) (ha : 0 < ma) (hb : 0 < mb) :
    ∃ q, (F64.div (.finite ma ea) (.finite mb eb)).toRat = some q ∧ 0 < q := by
  have hna : 0 < ma.natAbs := Int.natAbs_pos.2 (ne_of_gt ha)
  have hnb : 0 < mb.natAbs := Int.natAbs_pos.2 (ne_of_gt hb)
  have hm := roundRatio_pos ma.natAbs mb.natAbs hna hnb
  refine ⟨_, by simp only [F64.div, ne_of_gt hb, ne_of_gt ha, if_false, F64.toRat]; rfl, ?_⟩
  rw [Int.sign_eq_one_of_pos ha, Int.sign_eq_one_of_pos hb]
  have : (0 : ℚ) < ((roundRatio ma.natAbs mb.natAbs).1 : ℚ) := by exact_mod_cast hm
  push_cast
  positivity

theorem div_finite_rel (ma ea mb eb : Int) (hb : mb ≠ 0) :
    ∃ q, (F64.div (.finite ma ea) (.finite mb eb)).toRat = some q ∧
      |q - ((ma : ℚ) * (2 : ℚ) ^ ea) / ((mb : ℚ) * (2 : ℚ) ^ eb)|
        ≤ |((ma : ℚ) * (2 : ℚ) ^ ea) / ((mb : ℚ) * (2 : ℚ) ^ eb)| / 2 ^ 53 := by
  by_cases ha : ma = 0
  · subst ha
    exact ⟨0, by simp [F64.div, hb, F64.zero, F64.toRat], by simp⟩
  have hna : 0 < ma.natAbs := Int.natAbs_pos.2 ha
  have hnb : 0 < mb.natAbs := Int.natAbs_pos.2 hb
  have hrel := roundRatio_rel ma.natAbs mb.natAbs hna hnb
  obtain ⟨σa, hσa, hsa, hva⟩ := int_sign_cast ma ha
  obtain ⟨σb, hσb, hsb, hvb⟩ := int_sign_cast mb hb
  have hNb : (0 : ℚ) < ((mb.natAbs : Nat) : ℚ) := by exact_mod_cast hnb
  have hNa : (0 : ℚ) < ((ma.natAbs : Nat) : ℚ) := by exact_mod_cast hna
  have h2 : (2 : ℚ) ≠ 0 := by norm_num
  have hpa : (0 : ℚ) < (2 : ℚ) ^ ea := by positivity
  have hpb : (0 : ℚ) < (2 : ℚ) ^ eb := by positivity
  refine ⟨_, by simp only [F64.div, hb, ha, if_false, F64.toRat]; rfl, ?_⟩
  generalize (roundRatio ma.natAbs mb.natAbs).1 = m at hrel ⊢
  generalize (roundRatio ma.natAbs mb.natAbs).2 = e at hrel ⊢
  have hσσ : |σa * σb| = 1 := by
    rcases hσa with h | h <;> rcases hσb with h' | h' <;> rw [h, h'] <;> norm_num
  have hσb2 : σb * σb = 1 := by rcases hσb with h | h <;> rw [h] <;> norm_num
  have hσb0 : σb ≠ 0 := by rcases hσb with h | h <;> rw [h] <;> norm_num
  have hexp : (2 : ℚ) ^ (e + ea - eb) = (2 : ℚ) ^ e * (2 : ℚ) ^ ea / (2 : ℚ) ^ eb := by
    rw [zpow_sub₀ h2, zpow_add₀ h2]
  have hquot : ((ma : ℚ) * (2 : ℚ) ^ ea) / ((mb : ℚ) * (2 : ℚ) ^ eb) =
      (σa * σb) * ((2 : ℚ) ^ ea / (2 : ℚ) ^ eb) *
        (((ma.natAbs : Nat) : ℚ) / ((mb.natAbs : Nat) : ℚ)) := by
    rw [hva, hvb]
    field_simp
    calc σa * ((ma.natAbs : Nat) : ℚ) * 2 ^ ea * (2 ^ eb * ((mb.natAbs : Nat) : ℚ))
        = (σb * σb) * (σa * ((ma.natAbs : Nat) : ℚ) * 2 ^ ea * (2 ^ eb * ((mb.natAbs : Nat) : ℚ))) := by
          rw [hσb2, one_mul]
      _ = σa * σb * 2 ^ ea * ((ma.natAbs : Nat) : ℚ) * (σb * ((mb.natAbs : Nat) : ℚ) * 2 ^ eb) := by ring
  have hval : ((ma.sign * mb.sign * (m : Int) : Int) : ℚ) * (2 : ℚ) ^ (e + ea - eb) =
      (σa * σb) * ((2 : ℚ) ^ ea / (2 : ℚ) ^ eb) * ((m : ℚ) * (2 : ℚ) ^ e) := by
    push_cast
    rw [hsa, hsb, hexp]
    ring
  have hscale : (0 : ℚ) < (2 : ℚ) ^ ea / (2 : ℚ) ^ eb := by positivity
  have hratio : (0 : ℚ) ≤ ((ma.natAbs : Nat) : ℚ) / ((mb.natAbs : Nat) : ℚ) := by positivity
  have hK : |σa * σb * ((2 : ℚ) ^ ea / (2 : ℚ) ^ eb)| = (2 : ℚ) ^ ea / (2 : ℚ) ^ eb := by
    rw [abs_mul, hσσ, one_mul, abs_of_pos hscale]
  rw [hval, hquot, ← mul_sub, abs_mul, hK,
    abs_mul (σa * σb * ((2 : ℚ) ^ ea / (2 : ℚ) ^ eb)), hK, abs_of_nonneg hratio, mul_div_assoc]
  exact mul_le_mul_of_nonneg_left hrel (le_of_lt hscale)

/-! ## `durationChart`: the result -/

theorem dataLoop_spec (N M : Nat) (arr : List WebResult) (hlen : arr.length = N * M)
    (i : Nat) (hi : i < N) (n : Nat) (hn : n ≤ M) :
    ∃ d, forLoop n (durationChart.dataStep M arr i) (List.replicate M (0, 0)) = some d ∧
      d.length = M := by
  induction n with
  | zero => exact ⟨_, rfl, by simp⟩
  | succ k ih =>
    obtain ⟨d, hd, hl⟩ := ih (Nat.le_of_succ_le hn)
    have hk : i * M + k < arr.length := hlen ▸ cell_index_lt hi (Nat.lt_of_succ_le hn)
    have hkd : k < d.length := by omega
    exact ⟨d.set k ((k : Int), milliseconds (arr[i * M + k]).duration),
      by simp only [forLoop, hd, Option.some_bind, durationChart.dataStep,
        List.getElem?_eq_getElem hk, hkd, if_true],
      by simp [hl]⟩

theorem clientLoop_spec (N M : Nat) (arr : List WebResult) (hlen : arr.length = N * M)
    (n : Nat) (hn : n ≤ N) :
    ∃ s, forLoop n (durationChart.clientStep M arr) [] = some s ∧ s.length = n := by
  induction n with
  | zero => exact ⟨[], rfl, rfl⟩
  | succ k ih =>
    obtain ⟨s, hs, hl⟩ := ih (Nat.le_of_succ_le hn)
    obtain ⟨d, hd, -⟩ := dataLoop_spec N M arr hlen k (Nat.lt_of_succ_le hn) M (le_refl M)
    exact ⟨s ++ [d],
      by simp only [forLoop, hs, Option.some_bind, durationChart.clientStep, hd, Option.map_some'],
      by simp [hl]⟩

theorem avgLoop_spec (N M : Nat) (arr : List WebResult) (hlen : arr.length = N * M)
    (n : Nat) (hn : n ≤ M) :
    ∃ l, forLoop n (durationChart.avgStep N M arr)
        (List.replicate M (F64.zero, F64.zero)) = some l ∧
      l.length = M ∧
      ∀ j : Nat, j < n →
        l[j]? = some (F64.ofInt (j : Int),
          durationChart.average (wrap64 (verifiedMs N M arr j).sum)
            (verifiedMs N M arr j).length) := by
  induction n with
  | zero => exact ⟨_, rfl, by simp, fun j hj => absurd hj (Nat.not_lt_zero j)⟩
  | succ k ih =>
    obtain ⟨l, hl, hlen', hval⟩ := ih (Nat.le_of_succ_le hn)
    have hk : k < M := hn
    have hkl : k < l.length := by omega
    refine ⟨l.set k (F64.ofInt (k : Int),
      durationChart.average (wrap64 (verifiedMs N M arr k).sum) (verifiedMs N M arr k).length),
      ?_, by simp [hlen'], ?_⟩
    · simp only [forLoop, hl, Option.some_bind, durationChart.avgStep,
        sumLoop_spec N M arr k N hlen hk (le_refl N), hkl, if_true]
    · intro j hj
      rcases Nat.lt_succ_iff_lt_or_eq.1 hj with hlt | rfl
      · have hne : k ≠ j := by omega
        simp [List.getElem?_set, hne, hval j hlt]
      · simp [List.getElem?_set, hkl]

theorem durationChart_spec (N M : Nat) (arr : List WebResult) (hlen : arr.length = N * M) :
    ∃ r, durationChart N M arr = some r ∧
      r.series.length = N ∧ r.avgList.length = M ∧
      ∀ j : Nat, j < M →
        r.avgList[j]? = some (F64.ofInt (j : Int),
          durationChart.average (wrap64 (verifiedMs N M arr j).sum)
            (verifiedMs N M arr j).length) := by
  obtain ⟨a, ha, -⟩ := axisLoop_spec M M (le_refl M)
  obtain ⟨s, hs, hsl⟩ := clientLoop_spec N M arr hlen N (le_refl N)
  obtain ⟨l, hl, hll, hval⟩ := avgLoop_spec N M arr hlen M (le_refl M)
  exact ⟨⟨a, s, l⟩, by simp only [durationChart, ha, hs, hl, Option.some_bind], hsl, hll, hval⟩

theorem average_zero_of_none (sum : Int) : durationChart.average sum 0 = F64.zero := by
  simp [durationChart.average]

theorem average_finite (sum : Int) (div : Nat) :
    ∃ q, (durationChart.average sum div).toRat = some q := by
  by_cases hd : div = 0
  · subst hd
    exact ⟨0, by simp [durationChart.average, F64.zero, F64.toRat]⟩
  · obtain ⟨ms, es, hs, -⟩ := ofInt_finite sum
    obtain ⟨md, ed, hdv, hne⟩ := ofInt_finite (div : Int)
    have hmd : md ≠ 0 := hne (by exact_mod_cast hd)
    obtain ⟨q, hq, -⟩ := div_finite_rel ms es md ed hmd
    exact ⟨q, by simp only [durationChart.average, hd, if_false, hs, hdv, hq]⟩

theorem average_rel (sum : Int) (div : Nat) (hd : 0 < div)
    (h1 : -2 ^ 53 < sum) (h2 : sum < 2 ^ 53) (h3 : div < 2 ^ 53) :
    ∃ q, (durationChart.average sum div).toRat = some q ∧
      |q - (sum : ℚ) / (div : ℚ)| ≤ |(sum : ℚ) / (div : ℚ)| / 2 ^ 53 := by
  obtain ⟨ms, es, hs, hsv, -⟩ := ofInt_exact sum h1 h2
  obtain ⟨md, ed, hdv, hdvv, hne⟩ := ofInt_exact (div : Int) (by omega) (by exact_mod_cast h3)
  have hmd : md ≠ 0 := hne (by omega)
  obtain ⟨q, hq, hrel⟩ := div_finite_rel ms es md ed hmd
  rw [hsv, hdvv] at hrel
  refine ⟨q, by simp only [durationChart.average, Nat.pos_iff_ne_zero.1 hd, if_false, hs, hdv, hq],
    ?_⟩
  exact_mod_cast hrel

theorem average_pos (sum : Int) (div : Nat) (hs : 0 < sum) (hd : 0 < div) :
    ∃ q, (durationChart.average sum div).toRat = some q ∧ 0 < q := by
  obtain ⟨ms, es, hsv, hms⟩ := ofInt_pos sum hs
  obtain ⟨md, ed, hdv, hmd⟩ := ofInt_pos (div : Int) (by exact_mod_cast hd)
  obtain ⟨q, hq, hpos⟩ := div_finite_pos ms es md ed hms hmd
  exact ⟨q, by simp only [durationChart.average, Nat.pos_iff_ne_zero.1 hd, if_false, hsv, hdv, hq],
    hpos⟩

theorem milliseconds_pos {d : Int} (h : 1000000 ≤ d) : 1 ≤ milliseconds d := by
  unfold milliseconds
  rw [Int.tdiv_eq_ediv (by omega) (by decide)]
  omega

theorem verifiedMs_all_verified (N M : Nat) (arr : List WebResult) (hlen : arr.length = N * M)
    (hall : ∀ c ∈ arr, c.err = none ∧ c.verify = true ∧ 1000000 ≤ c.duration)
    (j : Nat) (hj : j < M) (n : Nat) (hn : n ≤ N) :
    (verifiedMs n M arr j).length = n ∧ (n : Int) ≤ (verifiedMs n M arr j).sum := by
  induction n with
  | zero => simp [verifiedMs]
  | succ k ih =>
    obtain ⟨h1, h2⟩ := ih (Nat.le_of_succ_le hn)
    have hk : k * M + j < arr.length := hlen ▸ cell_index_lt (Nat.lt_of_succ_le hn) hj
    obtain ⟨-, hv, hd⟩ := hall _ (List.getElem_mem hk)
    have hms := milliseconds_pos hd
    rw [verifiedMs_succ, List.getElem?_eq_getElem hk]
    simp only [hv, if_true, List.length_append, List.sum_append, List.length_singleton,
      List.sum_singleton, h1]
    constructor
    · trivial
    · push_cast; omega

/-! ## Claims on `durationChart` -/

/-- C3 (as stated, refuted): with three verified cells of 1 ms, 0 ms and 0 ms
at one iteration, `durationChart` stores the `float64` value
`6004799503160661 * 2^-54` (the sum 1 divided by the count 3 in `float64`),
which is not the exact mean 1/3. -/
theorem average_not_exact_counterexample :
    (durationChart 3 1 thirdMatrix).map LineChart.avgList =
        some [(F64.zero, F64.finite 6004799503160661 (-54))] ∧
      meanLatency 3 1 thirdMatrix 0 = 1 / 3 ∧
      (F64.finite 6004799503160661 (-54)).toRat ≠ some (meanLatency 3 1 thirdMatrix 0) := by
  have hmean : meanLatency 3 1 thirdMatrix 0 = 1 / 3 := by
    have hv : verifiedMs 3 1 thirdMatrix 0 = [1, 0, 0] := by decide
    simp only [meanLatency, hv]
    norm_num
  refine ⟨by decide, hmean, ?_⟩
  rw [hmean]
  simp only [F64.toRat, ne_eq, Option.some.injEq]
  norm_num

/-- C3 (amended): for every matrix of length `N * M`, `durationChart` returns,
and for every iteration `j < M` the entry `avgList[j]` is `(float64(j), a)`
where `a` is the `float64` quotient of the `int64` sum of the millisecond
durations of the verified cells of iteration `j` and of their count. The value
`a` is always a finite `float64` (no division by zero occurs); it is 0 when no
client verified; and when the sum is below `2^53` in magnitude and the count is
below `2^53`, it differs from the arithmetic mean by at most the fraction
`2^-53` of the mean. -/
theorem durationChart_average (N M : Nat) (arr : List WebResult)
    (hlen : arr.length = N * M) :
    ∃ r, durationChart N M arr = some r ∧ r.avgList.length = M ∧
      ∀ j : Nat, j < M →
        ∃ a q, r.avgList[j]? = some (F64.ofInt (j : Int), a) ∧
          a = durationChart.average (wrap64 (verifiedMs N M arr j).sum)
            (verifiedMs N M arr j).length ∧
          a.toRat = some q ∧
          ((verifiedMs N M arr j).length = 0 → a = F64.zero ∧ q = 0 ∧
            meanLatency N M arr j = 0) ∧
          (-2 ^ 53 < (verifiedMs N M arr j).sum → (verifiedMs N M arr j).sum < 2 ^ 53 →
            (verifiedMs N M arr j).length < 2 ^ 53 →
            |q - meanLatency N M arr j| ≤ |meanLatency N M arr j| / 2 ^ 53) := by
  obtain ⟨r, hr, -, hl, hval⟩ := durationChart_spec N M arr hlen
  refine ⟨r, hr, hl, fun j hj => ?_⟩
  obtain ⟨q, hq⟩ := average_finite (wrap64 (verifiedMs N M arr j).sum)
    (verifiedMs N M arr j).length
  refine ⟨_, q, hval j hj, rfl, hq, ?_, ?_⟩
  · intro h0
    rw [h0, average_zero_of_none] at hq
    refine ⟨by rw [h0, average_zero_of_none], ?_, by simp [meanLatency, h0]⟩
    simp only [F64.zero, F64.toRat, Option.some.injEq] at hq
    rw [← hq]; simp
  · intro h1 h2 h3
    by_cases h0 : (verifiedMs N M arr j).length = 0
    · rw [h0, average_zero_of_none] at hq
      simp only [F64.zero, F64.toRat, Option.some.injEq] at hq
      rw [← hq]
      simp [meanLatency, h0]
    · have hw : wrap64 (verifiedMs N M arr j).sum = (verifiedMs N M arr j).sum :=
        wrap64_of_range (by omega) (by omega)
      rw [hw] at hq
      obtain ⟨q', hq', hrel⟩ := average_rel (verifiedMs N M arr j).sum
        (verifiedMs N M arr j).length (Nat.pos_of_ne_zero h0) h1 h2 h3
      rw [hq] at hq'
      cases hq'
      simpa [meanLatency, h0] using hrel

/-- Witness of C3 on the 2 x 2 sample matrix: at iteration 0 only client 0 is
verified, with 5 ms, and the average is 5; at iteration 1 the verified cell has
0 ms. -/
theorem durationChart_average_witness :
    sampleMatrix.length = 2 * 2 ∧
      (durationChart 2 2 sampleMatrix).map LineChart.avgList =
        some [(F64.zero, F64.finite 5629499534213120 (-50)),
          (F64.finite 4503599627370496 (-52), F64.zero)] ∧
      (F64.finite 5629499534213120 (-50)).toRat = some 5 ∧
      ∃ r, durationChart 2 2 sampleMatrix = some r ∧ r.avgList.length = 2 :=
  ⟨by decide, by decide, by simp only [F64.toRat]; norm_num,
    (durationChart_average 2 2 sampleMatrix (by decide)).imp fun _ h => ⟨h.1, h.2.1⟩⟩

/-- C8 (as stated, refuted): on the 1 x 1 matrix whose call was verified
without error in 500000 ns, a duration greater than zero, the average of
iteration 0 is 0, because the average is taken over whole milliseconds. -/
theorem average_submillisecond_counterexample :
    (∀ c ∈ fastMatrix, c.err = none ∧ c.verify = true ∧ 0 < c.duration) ∧
      (durationChart 1 1 fastMatrix).map LineChart.avgList = some [(F64.zero, F64.zero)] ∧
      F64.zero.toRat = some 0 := by
  refine ⟨by decide, by decide, ?_⟩
  simp [F64.zero, F64.toRat]

/-- C8 (amended): for every `N ≥ 1` and every matrix of length `N * M` in which
every cell has no error, `verify = true` and a duration of at least one
millisecond, and in which the millisecond durations of each iteration sum to
less than `2^63`, `durationChart` returns and the average it stores for every
iteration `j < M` is a finite `float64` greater than 0. -/
theorem durationChart_average_pos (N M : Nat) (arr : List WebResult) (hN : 1 ≤ N)
    (hlen : arr.length = N * M)
    (hall : ∀ c ∈ arr, c.err = none ∧ c.verify = true ∧ 1000000 ≤ c.duration)
    (hsum : ∀ j : Nat, j < M → (verifiedMs N M arr j).sum < 2 ^ 63) :
    ∃ r, durationChart N M arr = some r ∧
      ∀ j : Nat, j < M →
        ∃ a q, r.avgList[j]? = some (F64.ofInt (j : Int), a) ∧ a.toRat = some q ∧ 0 < q := by
  obtain ⟨r, hr, -, -, hval⟩ := durationChart_spec N M arr hlen
  refine ⟨r, hr, fun j hj => ?_⟩
  obtain ⟨hcount, hge⟩ := verifiedMs_all_verified N M arr hlen hall j hj N (le_refl N)
  have hpos : 0 < (verifiedMs N M arr j).sum := by
    have : (1 : Int) ≤ (N : Int) := by exact_mod_cast hN
    omega
  have hw : wrap64 (verifiedMs N M arr j).sum = (verifiedMs N M arr j).sum :=
    wrap64_of_range (by omega) (hsum j hj)
  obtain ⟨q, hq, hqpos⟩ := average_pos (verifiedMs N M arr j).sum
    (verifiedMs N M arr j).length hpos (by omega)
  exact ⟨_, q, hval j hj, by rw [hw]; exact hq, hqpos⟩

/-- Witness of C8 on the scenario with two clients and three iterations: every
average is `float64(1)`, the whole milliseconds of 1.5 ms. -/
theorem durationChart_average_pos_witness :
    (durationChart 2 3 pongMatrix).map LineChart.avgList =
        some [(F64.zero, F64.finite 4503599627370496 (-52)),
          (F64.finite 4503599627370496 (-52), F64.finite 4503599627370496 (-52)),
          (F64.finite 4503599627370496 (-51), F64.finite 4503599627370496 (-52))] ∧
      ∃ r, durationChart 2 3 pongMatrix = some r ∧
        ∀ j : Nat, j < 3 →
          ∃ a q, r.avgList[j]? = some (F64.ofInt (j : Int), a) ∧ a.toRat = some q ∧ 0 < q :=
  ⟨by decide,
    durationChart_average_pos 2 3 pongMatrix (by decide) (by decide) (by decide) (by decide)⟩

end WebPerformance
